import Mathlib

/-!
Verification of the eBPF collection-loading core of cilium (pkg/bpf/collection.go).

The Go source is shallowly embedded: Go maps become association lists (a list
order stands for one admissible Go map iteration order), pointers to specs
become explicit value threading, machine integers become Nat/Int with explicit
truncation where the code casts, and fallible code returns Except.
-/

set_option maxHeartbeats 1000000

/-- Association-list lookup, the model of Go map indexing. Returns the first
binding of the key. -/
def alookup {α β : Type} [DecidableEq α] (k : α) : List (α × β) → Option β
  | [] => none
  | e :: rest => if e.1 = k then some e.2 else alookup k rest

theorem alookup_eq_none {α β : Type} [DecidableEq α] (k : α) (l : List (α × β)) :
    alookup k l = none ↔ k ∉ l.map Prod.fst := by
  induction l with
  | nil => simp [alookup]
  | cons e rest ih =>
    simp only [alookup, List.map_cons, List.mem_cons]
    by_cases h : e.1 = k
    · simp [h]
    · simp [h, ih, Ne.symm h]

theorem alookup_append_right {α β : Type} [DecidableEq α] (k : α) (l₁ l₂ : List (α × β))
    (h : alookup k l₁ = none) : alookup k (l₁ ++ l₂) = alookup k l₂ := by
  induction l₁ with
  | nil => simp
  | cons e rest ih =>
    simp only [alookup, List.cons_append] at h ⊢
    by_cases he : e.1 = k
    · simp [he] at h
    · simp only [he, if_false] at h ⊢
      exact ih h

theorem alookup_append_left {α β : Type} [DecidableEq α] (k : α) (l₁ l₂ : List (α × β))
    (b : β) (h : alookup k l₁ = some b) : alookup k (l₁ ++ l₂) = some b := by
  induction l₁ with
  | nil => simp [alookup] at h
  | cons e rest ih =>
    simp only [alookup, List.cons_append] at h ⊢
    by_cases he : e.1 = k
    · simpa [he] using h
    · simp only [he, if_false] at h ⊢
      exact ih h

theorem alookup_isSome_iff_mem {α β : Type} [DecidableEq α] (k : α) (l : List (α × β)) :
    (alookup k l).isSome = true ↔ k ∈ l.map Prod.fst := by
  rcases h : alookup k l with _ | b
  · simp [(alookup_eq_none k l).mp h, h]
  · simp only [Option.isSome_some, true_iff]
    by_contra hk
    rw [(alookup_eq_none k l).mpr hk] at h
    exact Option.noConfusion h

theorem alookup_mem_of_nodup {α β : Type} [DecidableEq α] {l : List (α × β)}
    (hnd : (l.map Prod.fst).Nodup) {e : α × β} (he : e ∈ l) :
    alookup e.1 l = some e.2 := by
  induction l with
  | nil => simp at he
  | cons x rest ih =>
    simp only [List.map_cons, List.nodup_cons] at hnd
    rcases List.mem_cons.mp he with rfl | hmem
    · simp [alookup]
    · have hne : x.1 ≠ e.1 := by
        intro hx
        exact hnd.1 (hx ▸ (List.mem_map.mpr ⟨e, hmem, rfl⟩))
      simp only [alookup, hne, if_false]
      exact ih hnd.2 hmem

theorem alookup_some_mem {α β : Type} [DecidableEq α] {k : α} {l : List (α × β)} {b : β}
    (h : alookup k l = some b) : (k, b) ∈ l := by
  induction l with
  | nil => simp [alookup] at h
  | cons e rest ih =>
    simp only [alookup] at h
    by_cases he : e.1 = k
    · simp only [he, if_true, Option.some.injEq] at h
      subst h
      exact he ▸ List.mem_cons_self e rest
    · simp only [he, if_false] at h
      exact List.mem_cons_of_mem e (ih h)

/-! ## Data model

The instruction model keeps exactly the fields and opcode discriminations that
pkg/bpf/collection.go inspects: builtin-call detection, the ALU move opcode,
the 64-bit load-immediate opcode, source and destination registers, the
immediate constant and the symbolic map reference of a load. -/

/-- BPF registers R0-R10 of cilium/ebpf asm. -/
inductive Reg where
  | r0 | r1 | r2 | r3 | r4 | r5 | r6 | r7 | r8 | r9 | r10
  deriving DecidableEq, Repr

/-- The asm.PseudoMapFD source-register marker equals R1 in cilium/ebpf. -/
def pseudoMapFD : Reg := .r1

/-- Opcode classes distinguished by removeUnreachableTailcalls: a jump
performing a call, an ALU move (OpCode.ALUOp() = Mov), the 64-bit
load-immediate LoadImmOp(DWord), and everything else. These classes are
mutually exclusive in the BPF opcode encoding. -/
inductive OpCodeKind where
  | jumpCall
  | aluMov
  | loadImmDW
  | otherOp
  deriving DecidableEq, Repr

/-- One fixed-width eBPF instruction, restricted to the fields the scanned
pattern reads. -/
structure Instruction where
  opCode : OpCodeKind
  dst : Reg
  src : Reg
  imm : Int
  reference : String
  deriving DecidableEq, Repr

/-- The asm.FnTailCall builtin-helper number. -/
def fnTailCall : Int := 12

/-- Instruction.IsBuiltinCall of cilium/ebpf: a call jump with R0 source and
destination. -/
def Instruction.isBuiltinCall (i : Instruction) : Bool :=
  i.opCode == .jumpCall && i.src == .r0 && i.dst == .r0

/-- Program types of ebpf.ProgramType that the file mentions. -/
inductive ProgramType where
  | unspecifiedProgram
  | xdp
  | schedCLS
  | otherType (n : Nat)
  deriving DecidableEq, Repr

/-- The ebpf.ProgramSpec fields used by the file. -/
structure ProgramSpec where
  name : String
  sectionName : String
  progType : ProgramType
  instructions : List Instruction
  deriving DecidableEq, Repr

/-- The ebpf.MapSpec fields used by the file. The legacy Extra trailer is a
raw byte sequence (none models a nil reader). -/
structure MapSpec where
  name : String
  extra : Option (List Nat)
  pinning : Nat
  contents : List (Nat × String)
  deriving DecidableEq, Repr

/-- An ebpf.VariableSpec: its containing map (section) name and its value. -/
structure VariableSpec where
  mapName : String
  value : Nat
  deriving DecidableEq, Repr

/-- Byte order recorded in the collection, used to decode legacy trailers. -/
inductive ByteOrder where
  | little
  | big
  deriving DecidableEq, Repr

/-- The ebpf.CollectionSpec fields used by the file. Go maps keyed by name
become association lists; the list order models one Go map iteration order. -/
structure CollectionSpec where
  programs : List (String × ProgramSpec)
  maps : List (String × MapSpec)
  vars : List (String × VariableSpec)
  byteOrder : ByteOrder
  deriving DecidableEq, Repr

/-- Kernel-load failures surfaced by ebpf.NewCollectionWithOptions. The
mapIncompatible case models ebpf.ErrMapIncompatible. -/
inductive LoadErr where
  | mapIncompatible
  | verifier (log : String)
  | otherErr (msg : String)
  deriving DecidableEq, Repr

/-- Errors returned by the embedded functions, one constructor per distinct
fmt.Errorf site; wrap models fmt.Errorf with a %w argument. -/
inductive BpfError where
  | duplicateTailCallIndex (slot : Nat)
  | unknownTailCallIndex (sectionName progName : String) (index : Int) (offset : Nat)
  | readingIproute2MapDefinition
  | duplicateIproute2MapID (id : Nat)
  | noMapWithID (id : Nat)
  | unableToClassifyProgramTypes
  | unknownMapRename (name rename : String)
  | nonExistentVariable (name : String)
  | variableWrongSection (gotSection fieldName : String)
  | settingVariable (name : String)
  | nilCollectionSpec
  | missingReplaceMap (name : String)
  | kernel (e : LoadErr)
  | wrap (msg : String) (e : BpfError)
  | fixpointFuelExhausted
  deriving DecidableEq, Repr

/-! ## Section-name parsing

fmt.Sscanf(sectionName, "%d/%v", &id, &slot) with two uint32 targets: a run
of decimal digits, a literal slash, then an integer whose base is detected
from its prefix (0x/0X hex, 0b/0B binary, 0o/0O or a leading 0 octal, else
decimal). Values must fit in 32 bits; trailing characters are ignored, as
Sscanf does not require the whole input to be consumed. Go digit-group
underscores are not modelled; no section name in the repository uses them. -/

def decDigit (c : Char) : Option Nat :=
  if '0' ≤ c ∧ c ≤ '9' then some (c.toNat - '0'.toNat) else none

def hexDigit (c : Char) : Option Nat :=
  if '0' ≤ c ∧ c ≤ '9' then some (c.toNat - '0'.toNat)
  else if 'a' ≤ c ∧ c ≤ 'f' then some (c.toNat - 'a'.toNat + 10)
  else if 'A' ≤ c ∧ c ≤ 'F' then some (c.toNat - 'A'.toNat + 10)
  else none

def octDigit (c : Char) : Option Nat :=
  if '0' ≤ c ∧ c ≤ '7' then some (c.toNat - '0'.toNat) else none

def binDigit (c : Char) : Option Nat :=
  if c = '0' then some 0 else if c = '1' then some 1 else none

/-- Consume a maximal run of digits, returning the accumulated value, the
number of digits consumed and the remaining characters. -/
def scanDigits (valf : Char → Option Nat) (base : Nat) :
    List Char → Nat → Nat × Nat × List Char
  | [], acc => (acc, 0, [])
  | c :: cs, acc =>
    match valf c with
    | some d =>
      let r := scanDigits valf base cs (acc * base + d)
      (r.1, r.2.1 + 1, r.2.2)
    | none => (acc, 0, c :: cs)

/-- Scan a decimal natural, requiring at least one digit. -/
def scanDec (cs : List Char) : Option (Nat × List Char) :=
  let r := scanDigits decDigit 10 cs 0
  if r.2.1 = 0 then none else some (r.1, r.2.2)

/-- Scan an integer in the default verb format of fmt scanning: base detected
from the prefix, at least one digit required after an 0x/0b/0o prefix, a bare
leading 0 counting as an octal digit on its own. -/
def scanBase0 (cs : List Char) : Option (Nat × List Char) :=
  match cs with
  | '0' :: c :: rest =>
    if c = 'x' ∨ c = 'X' then
      let r := scanDigits hexDigit 16 rest 0
      if r.2.1 = 0 then none else some (r.1, r.2.2)
    else if c = 'b' ∨ c = 'B' then
      let r := scanDigits binDigit 2 rest 0
      if r.2.1 = 0 then none else some (r.1, r.2.2)
    else if c = 'o' ∨ c = 'O' then
      let r := scanDigits octDigit 8 rest 0
      if r.2.1 = 0 then none else some (r.1, r.2.2)
    else
      let r := scanDigits octDigit 8 (c :: rest) 0
      some (r.1, r.2.2)
  | '0' :: rest => some (0, rest)
  | _ => scanDec cs

/-- Parse a section name against the "%d/%v" convention into (id, slot), both
uint32. Returns none exactly when Sscanf reports an error. -/
def parseIdSlot (s : String) : Option (Nat × Nat) :=
  match scanDec s.toList with
  | none => none
  | some (id, rest) =>
    if 2 ^ 32 ≤ id then none
    else
      match rest with
      | '/' :: rest2 =>
        match scanBase0 rest2 with
        | none => none
        | some (slot, _) => if 2 ^ 32 ≤ slot then none else some (id, slot)
      | _ => none

example : parseIdSlot "2/14" = some (2, 14) := by decide
example : parseIdSlot "1/0x0515" = some (1, 0x0515) := by decide
example : parseIdSlot "xdp" = none := by decide
example : parseIdSlot "2-14" = none := by decide

/-! ## removeUnreachableTailcalls (collection.go lines 50-183) -/

/-- CILIUM_MAP_CALLS, the reserved dispatch-map id of the calls map. -/
def ciliumCallsMap : Nat := 2

/-- Slot of a tail-call candidate: a program whose section name parses as
id/slot with id equal to the reserved dispatch-map id. Any other program is
an entrypoint. -/
def candidateSlot (p : ProgramSpec) : Option Nat :=
  match parseIdSlot p.sectionName with
  | some (id, slot) => if id = ciliumCallsMap then some slot else none
  | none => none

/-- The resolver-internal TailCall entry of removeUnreachableTailcalls. -/
structure TailCall where
  referenced : Bool
  visited : Bool
  tcSpec : ProgramSpec
  deriving DecidableEq, Repr

/-- First pass of removeUnreachableTailcalls: partition the programs into
entrypoints and slot-keyed tail-call candidates, rejecting a duplicate slot. -/
def classifyAux : List (String × ProgramSpec) → List ProgramSpec →
    List (Nat × TailCall) → Except BpfError (List ProgramSpec × List (Nat × TailCall))
  | [], eps, tcs => .ok (eps, tcs)
  | e :: rest, eps, tcs =>
    match candidateSlot e.2 with
    | none => classifyAux rest (eps ++ [e.2]) tcs
    | some slot =>
      match alookup slot tcs with
      | some _ => .error (.duplicateTailCallIndex slot)
      | none => classifyAux rest eps (tcs ++ [(slot, ⟨false, false, e.2⟩)])

def classifyTailcalls (progs : List (String × ProgramSpec)) :
    Except BpfError (List ProgramSpec × List (Nat × TailCall)) :=
  classifyAux progs [] []

/-- Truncating uint32 cast of the int64 mov constant. -/
def toU32 (c : Int) : Nat := (c % (2 ^ 32 : Int)).toNat

/-- The out-of-range default of instruction indexing; it matches no pattern.
Indexing in the Go loop is always in bounds, so the default is never read at
a live index. -/
def nullInst : Instruction := ⟨.otherOp, .r0, .r0, 0, ""⟩

def instAt (insns : List Instruction) (i : Nat) : Instruction :=
  insns.getD i nullInst

/-- The 3-instruction static tail-call idiom test at index i: instruction i is
a builtin tail call, i-1 moves the constant slot index into R3, and i-2 loads
a map file descriptor. On a match, returns the referenced map name and the
slot constant. The Go loop only reaches indices 3 <= i < length. -/
def tailCallTarget (insns : List Instruction) (i : Nat) : Option (String × Int) :=
  if 3 ≤ i ∧ i < insns.length then
    let inst := instAt insns i
    let movIdx := instAt insns (i - 1)
    let movR2 := instAt insns (i - 2)
    if inst.isBuiltinCall && (inst.imm == fnTailCall) &&
        (movIdx.opCode == .aluMov) && (movIdx.dst == .r3) &&
        (movR2.opCode == .loadImmDW) && (movR2.src == pseudoMapFD) then
      some (movR2.reference, movIdx.imm)
    else
      none
  else
    none

/-- Mark the entry at the given slot as referenced. -/
def setReferenced (s : Nat) (tcs : List (Nat × TailCall)) : List (Nat × TailCall) :=
  tcs.map (fun t => if t.1 = s then (t.1, { t.2 with referenced := true }) else t)

/-- Body of the visit closure: scan the given instruction indices for static
tail calls into the calls map, marking every resolved target as referenced
and failing on an unresolved slot. -/
def visitGo (p : ProgramSpec) : List (Nat × TailCall) → List Nat →
    Except BpfError (List (Nat × TailCall))
  | tcs, [] => .ok tcs
  | tcs, i :: rest =>
    match tailCallTarget p.instructions i with
    | none => visitGo p tcs rest
    | some (ref, c) =>
      if ref = "cilium_calls" then
        match alookup (toU32 c) tcs with
        | none => .error (.unknownTailCallIndex p.sectionName p.name c i)
        | some _ => visitGo p (setReferenced (toU32 c) tcs) rest
      else
        visitGo p tcs rest

/-- The visit closure of removeUnreachableTailcalls: the loop runs i from 3
while i < length. -/
def visit (p : ProgramSpec) (tcs : List (Nat × TailCall)) :
    Except BpfError (List (Nat × TailCall)) :=
  visitGo p tcs (List.range' 3 (p.instructions.length - 3))

/-- Visit every entrypoint in order. -/
def visitAll : List ProgramSpec → List (Nat × TailCall) →
    Except BpfError (List (Nat × TailCall))
  | [], tcs => .ok tcs
  | p :: rest, tcs =>
    match visit p tcs with
    | .error e => .error e
    | .ok tcs2 => visitAll rest tcs2

/-- Mark the entry at the given slot as visited. -/
def markVisited (s : Nat) (tcs : List (Nat × TailCall)) : List (Nat × TailCall) :=
  tcs.map (fun t => if t.1 = s then (t.1, { t.2 with visited := true }) else t)

/-- Number of false entries of a boolean list. -/
def countFalse : List Bool → Nat
  | [] => 0
  | b :: rest => (if b then 0 else 1) + countFalse rest

/-- Number of entries not yet visited; the termination measure of the goto
reset loop. -/
def countUnvisited (tcs : List (Nat × TailCall)) : Nat :=
  countFalse (tcs.map (fun t => t.2.visited))

/-- One fuelled transcription of the goto reset loop of
removeUnreachableTailcalls: find the first referenced-but-unvisited entry,
visit it, mark it visited and restart; stop when none is found. Each fuel
unit pays for one restart. The Go loop is unbounded; the termination theorem
proves the fuel below is never exhausted. -/
def resetLoopFuel : Nat → List (Nat × TailCall) →
    Option (Except BpfError (List (Nat × TailCall)))
  | 0, _ => none
  | n + 1, tcs =>
    match tcs.find? (fun t => t.2.referenced && !t.2.visited) with
    | none => some (.ok tcs)
    | some t =>
      match visit t.2.tcSpec tcs with
      | .error e => some (.error e)
      | .ok tcs2 => resetLoopFuel n (markVisited t.1 tcs2)

def resetLoop (tcs : List (Nat × TailCall)) : Except BpfError (List (Nat × TailCall)) :=
  match resetLoopFuel (countUnvisited tcs + 1) tcs with
  | some r => r
  | none => .error .fixpointFuelExhausted

/-- Classification, entrypoint scan and reachability fixed point; the final
tail-call table of removeUnreachableTailcalls. -/
def tailcallFixpoint (spec : CollectionSpec) : Except BpfError (List (Nat × TailCall)) :=
  match classifyTailcalls spec.programs with
  | .error e => .error e
  | .ok (eps, tcs) =>
    match visitAll eps tcs with
    | .error e => .error e
    | .ok tcs2 => resetLoop tcs2

/-- Transcription of removeUnreachableTailcalls: after the fixed point, every
candidate whose referenced flag is still false is deleted from the program
set by its spec name (the delete loop over a Go map equals a filter). -/
def removeUnreachableTailcalls (spec : CollectionSpec) : Except BpfError CollectionSpec :=
  match tailcallFixpoint spec with
  | .error e => .error e
  | .ok tcs =>
    .ok { spec with
          programs := spec.programs.filter
            (fun e => !(tcs.any (fun t => !t.2.referenced && t.2.tcSpec.name == e.1))) }

/-! ## iproute2Compat (collection.go lines 195-242) -/

/-- Byte of a trailer at an index; binary.Read never reads past the checked
length, so the default is dead at live indices. -/
def byteAt (bs : List Nat) (i : Nat) : Nat := bs.getD i 0

/-- Assemble a u32 from four bytes in the given byte order. -/
def readU32 (bo : ByteOrder) (bs : List Nat) (off : Nat) : Nat :=
  match bo with
  | .little =>
    byteAt bs off + 256 * byteAt bs (off + 1) + 65536 * byteAt bs (off + 2) +
      16777216 * byteAt bs (off + 3)
  | .big =>
    byteAt bs (off + 3) + 256 * byteAt bs (off + 2) + 65536 * byteAt bs (off + 1) +
      16777216 * byteAt bs off

/-- Decode the fixed-layout legacy trailer { id u32, pinning u32, reserved
u64 } with binary.Read: sixteen bytes are required, the reserved quadword is
read and discarded, surplus bytes stay unread. Returns (id, pinning). -/
def decodeTrailer (bo : ByteOrder) (bs : List Nat) : Option (Nat × Nat) :=
  if 16 ≤ bs.length then some (readU32 bo bs 0, readU32 bo bs 4) else none

/-- First pass of iproute2Compat: decode the non-empty Extra trailer of each
map, set the map pin type from the decoded pinning field, and index maps with
a non-zero decoded id, rejecting duplicate ids. The index stores the key of
the map in the collection, the model of the shared *MapSpec pointer. -/
def iproute2MapsLoop (bo : ByteOrder) : List (String × MapSpec) → List (Nat × String) →
    Except BpfError (List (String × MapSpec) × List (Nat × String))
  | [], idx => .ok ([], idx)
  | (n, m) :: rest, idx =>
    match m.extra with
    | none =>
      match iproute2MapsLoop bo rest idx with
      | .error e => .error e
      | .ok (ms, idx2) => .ok ((n, m) :: ms, idx2)
    | some bs =>
      if bs.length = 0 then
        match iproute2MapsLoop bo rest idx with
        | .error e => .error e
        | .ok (ms, idx2) => .ok ((n, m) :: ms, idx2)
      else
        match decodeTrailer bo bs with
        | none => .error .readingIproute2MapDefinition
        | some (id, pin) =>
          let m2 := { m with pinning := pin }
          if id ≠ 0 then
            match alookup id idx with
            | some _ => .error (.duplicateIproute2MapID id)
            | none =>
              match iproute2MapsLoop bo rest (idx ++ [(id, n)]) with
              | .error e => .error e
              | .ok (ms, idx2) => .ok ((n, m2) :: ms, idx2)
          else
            match iproute2MapsLoop bo rest idx with
            | .error e => .error e
            | .ok (ms, idx2) => .ok ((n, m2) :: ms, idx2)

/-- Append one (slot, program name) content entry to the map stored at the
given collection key, the model of the append through the indexed pointer. -/
def appendContent (key : String) (slot : Nat) (progName : String)
    (ms : List (String × MapSpec)) : List (String × MapSpec) :=
  ms.map (fun e =>
    if e.1 = key then (e.1, { e.2 with contents := e.2.contents ++ [(slot, progName)] })
    else e)

/-- Second pass of iproute2Compat: for each program whose section name parses
as id/slot, find the map carrying that iproute2 id and append the (slot,
program name) pair to its contents; a missing id is a hard error. -/
def iproute2ProgsLoop : List (String × ProgramSpec) → List (String × MapSpec) →
    List (Nat × String) → Except BpfError (List (String × MapSpec))
  | [], ms, _ => .ok ms
  | (n, p) :: rest, ms, idx =>
    match parseIdSlot p.sectionName with
    | none => iproute2ProgsLoop rest ms idx
    | some (id, slot) =>
      match alookup id idx with
      | none => .error (.noMapWithID id)
      | some key => iproute2ProgsLoop rest (appendContent key slot n ms) idx

/-- Transcription of iproute2Compat. -/
def iproute2Compat (spec : CollectionSpec) : Except BpfError CollectionSpec :=
  match iproute2MapsLoop spec.byteOrder spec.maps [] with
  | .error e => .error e
  | .ok (ms, idx) =>
    match iproute2ProgsLoop spec.programs ms idx with
    | .error e => .error e
    | .ok ms2 => .ok { spec with maps := ms2 }

/-! ## classifyProgramTypes (collection.go lines 373-417) -/

/-- The fixed table of known entrypoint symbol names and the program type
each one implies. -/
def classifyEntryName (name : String) : Option ProgramType :=
  if name = "cil_xdp_entry" then some .xdp
  else if name ∈ ["cil_from_container", "cil_to_container",
      "cil_from_netdev", "cil_from_host", "cil_to_netdev", "cil_to_host",
      "cil_from_network",
      "cil_to_overlay", "cil_from_overlay",
      "cil_to_wireguard", "cil_from_wireguard"] then some .schedCLS
  else none

/-- The first loop of classifyProgramTypes: walk the programs in iteration
order and stop at the first one that either already carries a resolved type
(adopting that type) or whose name is in the fixed table (adopting the table
type); unspecifiedProgram when the walk finds neither. -/
def inferType : List (String × ProgramSpec) → ProgramType
  | [] => .unspecifiedProgram
  | (name, p) :: rest =>
    if p.progType ≠ .unspecifiedProgram then p.progType
    else
      match classifyEntryName name with
      | some t => t
      | none => inferType rest

/-- Transcription of classifyProgramTypes: infer the default type, assign it
to every program still unspecified, and fail when nothing was inferred. -/
def classifyProgramTypes (spec : CollectionSpec) : Except BpfError CollectionSpec :=
  let t := inferType spec.programs
  let progs := spec.programs.map (fun e =>
    if e.2.progType = .unspecifiedProgram then (e.1, { e.2 with progType := t }) else e)
  if t = .unspecifiedProgram then .error .unableToClassifyProgramTypes
  else .ok { spec with programs := progs }

/-! ## applyConstants (collection.go lines 435-463) and its collaborators.

The config package (pkg/datapath/config) is not part of the shown sources;
its pieces are modelled from the spec. -/

/-- Modelled from the spec: config.ConstantPrefix, the fixed constant-prefix
convention prepended to a logical field name to obtain the variable name. -/
def constPfx : String := "__config_"

/-- Modelled from the spec: config.Section, the single reserved configuration
section holding runtime config variables. -/
def configSection : String := ".rodata.config"

/-- Modelled from the spec: VariableSpec.Set assigns the value into the
variable; type compatibility is the responsibility of the external flattening
step, so assignment itself always succeeds here. -/
def setVariable (vars : List (String × VariableSpec)) (key : String) (value : Nat) :
    List (String × VariableSpec) :=
  vars.map (fun e => if e.1 = key then (e.1, { e.2 with value := value }) else e)

/-- Loop body of applyConstants over the flattened constants. -/
def applyConstantsLoop : CollectionSpec → List (String × Nat) →
    Except BpfError CollectionSpec
  | spec, [] => .ok spec
  | spec, (name, value) :: rest =>
    let constName := constPfx ++ name
    match alookup constName spec.vars with
    | none => .error (.nonExistentVariable name)
    | some v =>
      if v.mapName ≠ configSection then .error (.variableWrongSection v.mapName name)
      else applyConstantsLoop { spec with vars := setVariable spec.vars constName value } rest

/-- Transcription of applyConstants. The opaque constants value arrives here
already flattened to (field name, value) pairs: config.StructToMap, an
external collaborator, is modelled as the identity on that mapping, and a nil
object as none. -/
def applyConstants (spec : CollectionSpec) (obj : Option (List (String × Nat))) :
    Except BpfError CollectionSpec :=
  match obj with
  | none => .ok spec
  | some constants => applyConstantsLoop spec constants

/-! ## LoadCollection (collection.go lines 297-362) and its collaborators.

renameMaps is in the shown sources; consumePinReplace, incompatibleMaps,
mapsToReplace and commitMapPins live in other files of pkg/bpf and are
modelled from the spec. The kernel itself (ebpf.NewCollectionWithOptions and
the state of pinned objects) is external and is modelled as a scripted
oracle: one response per load attempt plus an incompatible-map verdict. -/

/-- Transcription of renameMaps: each rename target must exist; the Name
field of the map spec is rewritten in place, the key is untouched. -/
def renameMaps : CollectionSpec → List (String × String) → Except BpfError CollectionSpec
  | spec, [] => .ok spec
  | spec, (name, rename) :: rest =>
    match alookup name spec.maps with
    | none => .error (.unknownMapRename name rename)
    | some _ =>
      renameMaps
        { spec with
          maps := spec.maps.map (fun e =>
            if e.1 = name then (e.1, { e.2 with name := rename }) else e) }
        rest

/-- Caller-supplied per-load options: kernel options are passed through to
the oracle, the opaque constants value arrives pre-flattened, and map renames
are a name-to-name list. -/
structure CollectionOptions where
  constants : Option (List (String × Nat))
  mapRenames : List (String × String)
  deriving DecidableEq, Repr

/-- Modelled from the spec: the CILIUM_PIN_REPLACE pin-type marker that the
kernel loader does not recognize and must never see. -/
def pinReplaceMark : Nat := 1000

/-- Modelled from the spec: consumePinReplace records the key of every map
carrying the replace-pin marker and strips the marker before the load. -/
def consumePinReplace (spec : CollectionSpec) : List String × CollectionSpec :=
  (spec.maps.filterMap (fun e => if e.2.pinning = pinReplaceMark then some e.1 else none),
   { spec with
     maps := spec.maps.map (fun e =>
       if e.2.pinning = pinReplaceMark then (e.1, { e.2 with pinning := 0 }) else e) })

instance {ε α : Type} [DecidableEq ε] [DecidableEq α] : DecidableEq (Except ε α) := fun
  | .error a, .error b =>
    if h : a = b then .isTrue (congrArg Except.error h)
    else .isFalse (fun hh => h (Except.error.inj hh))
  | .error _, .ok _ => .isFalse Except.noConfusion
  | .ok _, .error _ => .isFalse Except.noConfusion
  | .ok a, .ok b =>
    if h : a = b then .isTrue (congrArg Except.ok h)
    else .isFalse (fun hh => h (Except.ok.inj hh))

/-- A live kernel object collection: named map and program handles. -/
structure Collection where
  collMaps : List (String × Nat)
  collProgs : List (String × Nat)
  deriving DecidableEq, Repr

/-- The scripted kernel oracle: the outcome of the first and (if reached)
second load attempt, and the verdict of the pinned-counterpart comparison
used by incompatibleMaps. -/
structure KernelModel where
  attempt1 : Except LoadErr Collection
  attempt2 : Except LoadErr Collection
  incompat : Except String (List String)
  deriving DecidableEq, Repr

/-- Modelled from the spec: incompatibleMaps recomputes, by comparing each
map spec against its pinned kernel counterpart, the names of all incompatible
maps, and strips their pinning flags from the spec. -/
def incompatibleMaps (spec : CollectionSpec) (k : KernelModel) :
    Except BpfError (List String × CollectionSpec) :=
  match k.incompat with
  | .error msg => .error (.kernel (.otherErr msg))
  | .ok names =>
    .ok (names,
      { spec with
        maps := spec.maps.map (fun e =>
          if names.contains e.1 then (e.1, { e.2 with pinning := 0 }) else e) })

/-- Modelled from the spec: mapsToReplace resolves each to-replace name to
its now-live kernel map handle, before the collection is handed back. The
returned pins are what the commit closure later replaces on the pin
filesystem. -/
def mapsToReplace : List String → Collection → Except BpfError (List (String × Nat))
  | [], _ => .ok []
  | n :: rest, coll =>
    match alookup n coll.collMaps with
    | none => .error (.missingReplaceMap n)
    | some h =>
      match mapsToReplace rest coll with
      | .error e => .error e
      | .ok pins => .ok ((n, h) :: pins)

/-- Model of spec.Copy(): a deep copy. Specs are immutable values here, so
the copy is the value itself; what matters is that the pipeline below threads
the copy, never the caller value. -/
def specCopy (spec : CollectionSpec) : CollectionSpec := spec

/-- The normalize steps of LoadCollection that run before any kernel
interaction, applied to the internal copy: renames, constants, and the
replace-pin sweep. Returns the prepared spec and the initial to-replace
set. -/
def prepareSpec (spec : CollectionSpec) (opts : CollectionOptions) :
    Except BpfError (CollectionSpec × List String) :=
  match renameMaps (specCopy spec) opts.mapRenames with
  | .error e => .error e
  | .ok s1 =>
    match applyConstants s1 opts.constants with
    | .error e => .error (.wrap "applying variable overrides" e)
    | .ok s2 =>
      let pr := consumePinReplace s2
      .ok (pr.2, pr.1)

/-- Everything loadCollection hands back: the load result together with the
pin set the commit closure would replace, the number of kernel load attempts
made, and the value of the caller-owned spec after the call returns. -/
structure LoadOutcome where
  result : Except BpfError (Collection × List (String × Nat))
  attempts : Nat
  callerSpec : Option CollectionSpec
  deriving DecidableEq, Repr

def finishLoad (coll : Collection) (toReplace : List String) (orig : CollectionSpec)
    (attempts : Nat) : LoadOutcome :=
  match mapsToReplace toReplace coll with
  | .error e => ⟨.error (.wrap "collecting map pins to replace" e), attempts, some orig⟩
  | .ok pins => ⟨.ok (coll, pins), attempts, some orig⟩

/-- Transcription of LoadCollection: nil check, deep copy, renames, constant
patching, replace-pin sweep, first load attempt, the single retry on
ErrMapIncompatible with the recomputed incompatible set unioned into the
to-replace set, and resolution of the pins for the commit closure. -/
def loadCollection : Option CollectionSpec → Option CollectionOptions → KernelModel →
    LoadOutcome
  | none, _, _ => ⟨.error .nilCollectionSpec, 0, none⟩
  | some spec0, opts, k =>
    match prepareSpec spec0 (opts.getD ⟨none, []⟩) with
    | .error e => ⟨.error e, 0, some spec0⟩
    | .ok (w, toReplace) =>
      match k.attempt1 with
      | .ok coll => finishLoad coll toReplace spec0 1
      | .error e =>
        if e = .mapIncompatible then
          match incompatibleMaps w k with
          | .error e2 => ⟨.error (.wrap "finding incompatible maps" e2), 1, some spec0⟩
          | .ok (incompat, _) =>
            match k.attempt2 with
            | .ok coll => finishLoad coll (toReplace ++ incompat) spec0 2
            | .error e3 => ⟨.error (.kernel e3), 2, some spec0⟩
        else ⟨.error (.kernel e), 1, some spec0⟩

/-! ## Invariants of the reachability scan -/

/-- Everything about a tail-call entry except its referenced flag. -/
def tcFrame (t : Nat × TailCall) : Nat × Bool × ProgramSpec :=
  (t.1, t.2.visited, t.2.tcSpec)

/-- The slot key and program of a tail-call entry. -/
def tcSkel (t : Nat × TailCall) : Nat × ProgramSpec :=
  (t.1, t.2.tcSpec)

theorem skel_of_frame {l1 l2 : List (Nat × TailCall)}
    (h : l1.map tcFrame = l2.map tcFrame) : l1.map tcSkel = l2.map tcSkel := by
  have h2 := congrArg (List.map (fun x : Nat × Bool × ProgramSpec => (x.1, x.2.2))) h
  simpa [List.map_map, Function.comp_def, tcFrame, tcSkel] using h2

theorem keys_of_skel {l1 l2 : List (Nat × TailCall)}
    (h : l1.map tcSkel = l2.map tcSkel) : l1.map Prod.fst = l2.map Prod.fst := by
  have h2 := congrArg (List.map (fun x : Nat × ProgramSpec => x.1)) h
  simpa [List.map_map, Function.comp_def, tcSkel] using h2

theorem visited_of_frame {l1 l2 : List (Nat × TailCall)}
    (h : l1.map tcFrame = l2.map tcFrame) :
    l1.map (fun t => t.2.visited) = l2.map (fun t => t.2.visited) := by
  have h2 := congrArg (List.map (fun x : Nat × Bool × ProgramSpec => x.2.1)) h
  simpa [List.map_map, Function.comp_def, tcFrame] using h2

theorem setReferenced_frame (s : Nat) (tcs : List (Nat × TailCall)) :
    (setReferenced s tcs).map tcFrame = tcs.map tcFrame := by
  induction tcs with
  | nil => rfl
  | cons t rest ih =>
    simp only [setReferenced, List.map_cons] at ih ⊢
    by_cases h : t.1 = s
    · simp [h, tcFrame, ih]
    · simp [h, tcFrame, ih]

theorem markVisited_skel (s : Nat) (tcs : List (Nat × TailCall)) :
    (markVisited s tcs).map tcSkel = tcs.map tcSkel := by
  induction tcs with
  | nil => rfl
  | cons t rest ih =>
    simp only [markVisited, List.map_cons] at ih ⊢
    by_cases h : t.1 = s
    · simp [h, tcSkel, ih]
    · simp [h, tcSkel, ih]

theorem visitGo_frame (p : ProgramSpec) (idxs : List Nat) :
    ∀ tcs tcs2, visitGo p tcs idxs = .ok tcs2 → tcs2.map tcFrame = tcs.map tcFrame := by
  induction idxs with
  | nil =>
    intro tcs tcs2 h
    rw [visitGo] at h
    cases h
    rfl
  | cons i rest ih =>
    intro tcs tcs2 h
    rw [visitGo] at h
    split at h
    · exact ih _ _ h
    · split at h
      · split at h
        · cases h
        · rw [ih _ _ h, setReferenced_frame]
      · exact ih _ _ h

theorem visit_frame {p : ProgramSpec} {tcs tcs2 : List (Nat × TailCall)}
    (h : visit p tcs = .ok tcs2) : tcs2.map tcFrame = tcs.map tcFrame :=
  visitGo_frame p _ tcs tcs2 h

theorem visitAll_frame : ∀ (eps : List ProgramSpec) (tcs tcs2 : List (Nat × TailCall)),
    visitAll eps tcs = .ok tcs2 → tcs2.map tcFrame = tcs.map tcFrame := by
  intro eps
  induction eps with
  | nil =>
    intro tcs tcs2 h
    rw [visitAll] at h
    cases h
    rfl
  | cons p rest ih =>
    intro tcs tcs2 h
    rw [visitAll] at h
    split at h
    · cases h
    · rename_i tcs1 hv
      rw [ih _ _ h, visit_frame hv]

theorem markVisited_cons (s : Nat) (t : Nat × TailCall) (rest : List (Nat × TailCall)) :
    markVisited s (t :: rest) =
      (if t.1 = s then (t.1, { t.2 with visited := true }) else t) :: markVisited s rest :=
  rfl

theorem countUnvisited_cons (t : Nat × TailCall) (l : List (Nat × TailCall)) :
    countUnvisited (t :: l) = (if t.2.visited then 0 else 1) + countUnvisited l :=
  rfl

theorem markVisited_count_le (s : Nat) (tcs : List (Nat × TailCall)) :
    countUnvisited (markVisited s tcs) ≤ countUnvisited tcs := by
  induction tcs with
  | nil => exact Nat.le_refl _
  | cons t rest ih =>
    rw [markVisited_cons, countUnvisited_cons, countUnvisited_cons]
    by_cases h : t.1 = s
    · by_cases hv : t.2.visited <;> simp [h, hv] <;> omega
    · by_cases hv : t.2.visited <;> simp [h, hv] <;> omega

theorem markVisited_count_lt (s : Nat) (tcs : List (Nat × TailCall))
    (hw : ∃ t ∈ tcs, t.1 = s ∧ t.2.visited = false) :
    countUnvisited (markVisited s tcs) < countUnvisited tcs := by
  induction tcs with
  | nil => simp at hw
  | cons t rest ih =>
    obtain ⟨u, hu, hus, huv⟩ := hw
    have hle := markVisited_count_le s rest
    rcases List.mem_cons.mp hu with rfl | hmem
    · rw [markVisited_cons, countUnvisited_cons, countUnvisited_cons]
      simp only [hus, if_true, huv]
      simp
      omega
    · have ihr := ih ⟨u, hmem, hus, huv⟩
      rw [markVisited_cons, countUnvisited_cons, countUnvisited_cons]
      by_cases h : t.1 = s
      · by_cases hv : t.2.visited <;> simp [h, hv] <;> omega
      · by_cases hv : t.2.visited <;> simp [h, hv] <;> omega

theorem resetLoopFuel_mono : ∀ (n : Nat) (tcs : List (Nat × TailCall)) (r),
    resetLoopFuel n tcs = some r → resetLoopFuel (n + 1) tcs = some r := by
  intro n
  induction n with
  | zero => intro tcs r h; cases h
  | succ n ih =>
    intro tcs r h
    rw [resetLoopFuel] at h ⊢
    rcases hf : tcs.find? (fun t => t.2.referenced && !t.2.visited) with _ | t <;>
      simp only [hf] at h ⊢
    · exact h
    · rcases hv : visit t.2.tcSpec tcs with e | tcs2 <;> simp only [hv] at h ⊢
      · exact h
      · exact ih _ _ h

theorem resetLoopFuel_stable {m : Nat} {tcs : List (Nat × TailCall)}
    {r : Except BpfError (List (Nat × TailCall))} (h : resetLoopFuel m tcs = some r) :
    ∀ n, m ≤ n → resetLoopFuel n tcs = some r := by
  intro n hn
  induction n, hn using Nat.le_induction with
  | base => exact h
  | succ n hn ih => exact resetLoopFuel_mono n tcs r ih

theorem resetLoopFuel_isSome : ∀ (n : Nat) (tcs : List (Nat × TailCall)),
    countUnvisited tcs < n → (resetLoopFuel n tcs).isSome = true := by
  intro n
  induction n with
  | zero => intro tcs h; omega
  | succ n ih =>
    intro tcs h
    rw [resetLoopFuel]
    rcases hf : tcs.find? (fun t => t.2.referenced && !t.2.visited) with _ | t <;>
      simp only [hf]
    · rfl
    · rcases hv : visit t.2.tcSpec tcs with e | tcs2 <;> simp only [hv]
      · rfl
      · have hframe := visit_frame hv
        have hmem : t ∈ tcs := List.mem_of_find?_eq_some hf
        have hvis : t.2.visited = false := by
          have hpred := List.find?_some hf
          simp at hpred
          exact hpred.2
        have hmem2 : tcFrame t ∈ tcs2.map tcFrame := by
          rw [hframe]
          exact List.mem_map_of_mem tcFrame hmem
        obtain ⟨u, hu, hfu⟩ := List.mem_map.mp hmem2
        have hu1 : u.1 = t.1 := by
          have h2 := congrArg (fun x : Nat × Bool × ProgramSpec => x.1) hfu
          simpa [tcFrame] using h2
        have huv : u.2.visited = false := by
          have h2 := congrArg (fun x : Nat × Bool × ProgramSpec => x.2.1) hfu
          simpa [tcFrame, hvis] using h2
        have hlt : countUnvisited (markVisited t.1 tcs2) < countUnvisited tcs2 :=
          markVisited_count_lt t.1 tcs2 ⟨u, hu, hu1, huv⟩
        have hcnt : countUnvisited tcs2 = countUnvisited tcs := by
          unfold countUnvisited
          exact congrArg countFalse (visited_of_frame hframe)
        exact ih _ (by omega)

theorem resetLoopFuel_skel : ∀ (n : Nat) (tcs tcs2 : List (Nat × TailCall)),
    resetLoopFuel n tcs = some (.ok tcs2) → tcs2.map tcSkel = tcs.map tcSkel := by
  intro n
  induction n with
  | zero => intro tcs tcs2 h; cases h
  | succ n ih =>
    intro tcs tcs2 h
    rw [resetLoopFuel] at h
    rcases hf : tcs.find? (fun t => t.2.referenced && !t.2.visited) with _ | t <;>
      simp only [hf] at h
    · injection h with h1
      injection h1 with h2
      subst h2
      rfl
    · rcases hv : visit t.2.tcSpec tcs with e | tcs3 <;> simp only [hv] at h
      · simp at h
      · calc tcs2.map tcSkel
            = (markVisited t.1 tcs3).map tcSkel := ih _ _ h
          _ = tcs3.map tcSkel := markVisited_skel _ _
          _ = tcs.map tcSkel := skel_of_frame (visit_frame hv)

theorem resetLoop_ok_skel {tcs tcs2 : List (Nat × TailCall)}
    (h : resetLoop tcs = .ok tcs2) : tcs2.map tcSkel = tcs.map tcSkel := by
  unfold resetLoop at h
  rcases hr : resetLoopFuel (countUnvisited tcs + 1) tcs with _ | r <;> rw [hr] at h
  · simp at h
  · subst h
    exact resetLoopFuel_skel _ _ _ hr

/-- C3: the visit-then-restart loop of removeUnreachableTailcalls is a
terminating computation on every tail-call table: countUnvisited + 1 restarts
always suffice (the fuel is never exhausted), and giving the loop any larger
restart budget computes the same result, which is exactly what the unbounded
Go goto-reset loop computes. Each entry flips from unvisited to visited at
most once, which is the decreasing measure. -/
theorem resetLoop_fixpoint_terminates (tcs : List (Nat × TailCall)) :
    (resetLoopFuel (countUnvisited tcs + 1) tcs).isSome = true ∧
    ∀ n, countUnvisited tcs < n →
      resetLoopFuel n tcs = resetLoopFuel (countUnvisited tcs + 1) tcs := by
  constructor
  · exact resetLoopFuel_isSome _ _ (Nat.lt_succ_self _)
  · intro n hn
    obtain ⟨r, hr⟩ :=
      Option.isSome_iff_exists.mp (resetLoopFuel_isSome _ _ (Nat.lt_succ_self _))
    rw [hr]
    exact resetLoopFuel_stable hr n (by omega)

/-- Witness for the termination theorem at a concrete one-entry table. -/
def wTCprog : ProgramSpec := ⟨"w", "2/7", .schedCLS, []⟩

theorem resetLoop_fixpoint_terminates_witness :
    (resetLoopFuel (countUnvisited [(7, ⟨true, false, wTCprog⟩)] + 1)
        [(7, ⟨true, false, wTCprog⟩)]).isSome = true ∧
    resetLoopFuel 9 [(7, ⟨true, false, wTCprog⟩)] =
      resetLoopFuel (countUnvisited [(7, ⟨true, false, wTCprog⟩)] + 1)
        [(7, ⟨true, false, wTCprog⟩)] :=
  ⟨(resetLoop_fixpoint_terminates [(7, ⟨true, false, wTCprog⟩)]).1,
   (resetLoop_fixpoint_terminates [(7, ⟨true, false, wTCprog⟩)]).2 9 (by decide)⟩

/-! ## C10: the scan never looks at indices below 3 -/

def iLdMap (ref : String) : Instruction := ⟨.loadImmDW, .r1, pseudoMapFD, 0, ref⟩

def iMovR3 (c : Int) : Instruction := ⟨.aluMov, .r3, .r0, c, ""⟩

def iCall : Instruction := ⟨.jumpCall, .r0, .r0, fnTailCall, ""⟩

def iNop : Instruction := ⟨.otherOp, .r2, .r2, 0, ""⟩

/-- An entrypoint whose whole body is the 3-instruction idiom, call at
index 2. -/
def c10entryShort : ProgramSpec :=
  ⟨"ep3", "entry", .schedCLS, [iLdMap "cilium_calls", iMovR3 5, iCall]⟩

/-- The candidate registered at the slot that the idiom above targets. -/
def c10cand : ProgramSpec := ⟨"tc5", "2/5", .schedCLS, [iNop]⟩

def c10specA : CollectionSpec :=
  ⟨[("ep3", c10entryShort), ("tc5", c10cand)], [], [], .little⟩

/-- The same entrypoint with one instruction of padding, call at index 3. -/
def c10entryPad : ProgramSpec :=
  ⟨"ep4", "entry", .schedCLS, [iNop, iLdMap "cilium_calls", iMovR3 5, iCall]⟩

def c10specB : CollectionSpec :=
  ⟨[("ep4", c10entryPad), ("tc5", c10cand)], [], [], .little⟩

/-- C10: the instruction scan only considers call instructions at index 3 or
later. A well-formed tail-call idiom occupying instructions 0..2 (its call at
index 2, as the pattern facts below show) is not recognized, so the candidate
it references is pruned; padding the same program so the call lands at index
3 makes the candidate survive. -/
theorem tailcall_scan_ignores_call_at_index_two :
    tailCallTarget c10entryShort.instructions 2 = none ∧
    (instAt c10entryShort.instructions 2).isBuiltinCall = true ∧
    (instAt c10entryShort.instructions 2).imm = fnTailCall ∧
    (instAt c10entryShort.instructions 1).opCode = .aluMov ∧
    (instAt c10entryShort.instructions 1).dst = .r3 ∧
    (instAt c10entryShort.instructions 0).opCode = .loadImmDW ∧
    (instAt c10entryShort.instructions 0).src = pseudoMapFD ∧
    (instAt c10entryShort.instructions 0).reference = "cilium_calls" ∧
    (removeUnreachableTailcalls c10specA).map (fun s => s.programs.map Prod.fst) =
      .ok ["ep3"] ∧
    (removeUnreachableTailcalls c10specB).map (fun s => s.programs.map Prod.fst) =
      .ok ["ep4", "tc5"] := by
  decide

/-! ## Classification pass invariants and C8 -/

/-- The slot-keyed image of a program entry under classification: candidates
map to their (slot, program) pair, entrypoints to none. -/
def candEntry (e : String × ProgramSpec) : Option (Nat × ProgramSpec) :=
  (candidateSlot e.2).map (fun s => (s, e.2))

theorem classifyAux_skel : ∀ (progs : List (String × ProgramSpec)) (eps : List ProgramSpec)
    (tcs : List (Nat × TailCall)) (eps2 : List ProgramSpec) (tcs2 : List (Nat × TailCall)),
    classifyAux progs eps tcs = .ok (eps2, tcs2) →
    tcs2.map tcSkel = tcs.map tcSkel ++ progs.filterMap candEntry := by
  intro progs
  induction progs with
  | nil =>
    intro eps tcs eps2 tcs2 h
    rw [classifyAux] at h
    injection h with h1
    injection h1 with ha hb
    subst hb
    simp
  | cons e rest ih =>
    intro eps tcs eps2 tcs2 h
    rw [classifyAux] at h
    rcases hc : candidateSlot e.2 with _ | slot <;> simp only [hc] at h
    · rw [ih _ _ _ _ h]
      simp [candEntry, hc]
    · rcases hl : alookup slot tcs with _ | tc <;> simp only [hl] at h
      · rw [ih _ _ _ _ h]
        simp [candEntry, hc, tcSkel]
      · simp at h

theorem classifyAux_nodup : ∀ (progs : List (String × ProgramSpec)) (eps : List ProgramSpec)
    (tcs : List (Nat × TailCall)) (eps2 : List ProgramSpec) (tcs2 : List (Nat × TailCall)),
    classifyAux progs eps tcs = .ok (eps2, tcs2) →
    (tcs.map Prod.fst).Nodup → (tcs2.map Prod.fst).Nodup := by
  intro progs
  induction progs with
  | nil =>
    intro eps tcs eps2 tcs2 h hnd
    rw [classifyAux] at h
    injection h with h1
    injection h1 with ha hb
    subst hb
    exact hnd
  | cons e rest ih =>
    intro eps tcs eps2 tcs2 h hnd
    rw [classifyAux] at h
    rcases hc : candidateSlot e.2 with _ | slot <;> simp only [hc] at h
    · exact ih _ _ _ _ h hnd
    · rcases hl : alookup slot tcs with _ | tc <;> simp only [hl] at h
      · have hni : slot ∉ tcs.map Prod.fst := (alookup_eq_none slot tcs).mp hl
        refine ih _ _ _ _ h ?_
        rw [List.map_append]
        simp [List.nodup_append, hnd, hni]
      · simp at h

theorem classifyAux_err_of_mem_idx : ∀ (progs : List (String × ProgramSpec))
    (eps : List ProgramSpec) (tcs : List (Nat × TailCall)) (n2 : String)
    (p2 : ProgramSpec) (s : Nat),
    (n2, p2) ∈ progs → candidateSlot p2 = some s → (alookup s tcs).isSome = true →
    ∃ s2, classifyAux progs eps tcs = .error (.duplicateTailCallIndex s2) := by
  intro progs
  induction progs with
  | nil => intro eps tcs n2 p2 s hmem; simp at hmem
  | cons e rest ih =>
    intro eps tcs n2 p2 s hmem hs hl
    rw [classifyAux]
    rcases List.mem_cons.mp hmem with heq | hmem2
    · subst heq
      simp only [hs]
      obtain ⟨tc, htc⟩ := Option.isSome_iff_exists.mp hl
      rw [htc]
      exact ⟨s, rfl⟩
    · rcases hc : candidateSlot e.2 with _ | slot <;> simp only [hc]
      · exact ih _ _ _ _ _ hmem2 hs hl
      · rcases hsl : alookup slot tcs with _ | tc
        · obtain ⟨b, hb⟩ := Option.isSome_iff_exists.mp hl
          have hb2 := alookup_append_left s tcs [(slot, ⟨false, false, e.2⟩)] b hb
          exact ih _ _ _ _ _ hmem2 hs (by rw [hb2]; rfl)
        · exact ⟨slot, rfl⟩

theorem classifyAux_err_of_dup : ∀ (progs : List (String × ProgramSpec))
    (eps : List ProgramSpec) (tcs : List (Nat × TailCall)) (n1 n2 : String)
    (p1 p2 : ProgramSpec) (s : Nat),
    (n1, p1) ∈ progs → (n2, p2) ∈ progs → n1 ≠ n2 →
    candidateSlot p1 = some s → candidateSlot p2 = some s →
    ∃ s2, classifyAux progs eps tcs = .error (.duplicateTailCallIndex s2) := by
  intro progs
  induction progs with
  | nil => intro eps tcs n1 n2 p1 p2 s h1; simp at h1
  | cons e rest ih =>
    intro eps tcs n1 n2 p1 p2 s h1 h2 hne hs1 hs2
    rcases List.mem_cons.mp h1 with he1 | hm1
    · subst he1
      rcases List.mem_cons.mp h2 with he2 | hm2
      · exact absurd (congrArg Prod.fst he2.symm) hne
      · rw [classifyAux]
        simp only [hs1]
        rcases hsl : alookup s tcs with _ | tc
        · have hsome : (alookup s (tcs ++ [(s, ⟨false, false, p1⟩)])).isSome = true := by
            rw [alookup_append_right s tcs _ hsl]
            simp [alookup]
          exact classifyAux_err_of_mem_idx rest _ _ n2 p2 s hm2 hs2 hsome
        · exact ⟨s, rfl⟩
    · rcases List.mem_cons.mp h2 with he2 | hm2
      · subst he2
        rw [classifyAux]
        simp only [hs2]
        rcases hsl : alookup s tcs with _ | tc
        · have hsome : (alookup s (tcs ++ [(s, ⟨false, false, p2⟩)])).isSome = true := by
            rw [alookup_append_right s tcs _ hsl]
            simp [alookup]
          exact classifyAux_err_of_mem_idx rest _ _ n1 p1 s hm1 hs1 hsome
        · exact ⟨s, rfl⟩
      · rw [classifyAux]
        rcases hc : candidateSlot e.2 with _ | slot <;> simp only [hc]
        · exact ih _ _ _ _ _ _ _ hm1 hm2 hne hs1 hs2
        · rcases hsl : alookup slot tcs with _ | tc
          · exact ih _ _ _ _ _ _ _ hm1 hm2 hne hs1 hs2
          · exact ⟨slot, rfl⟩

/-- C8: two programs following the tail-call convention with the reserved
dispatch-map id and the same slot index make removeUnreachableTailcalls
return the duplicate-index hard error; the function performs no kernel
interaction and the error return carries no modified program set. -/
theorem removeUnreachable_duplicate_slot_error (spec : CollectionSpec)
    (n1 n2 : String) (p1 p2 : ProgramSpec) (s : Nat)
    (h1 : (n1, p1) ∈ spec.programs) (h2 : (n2, p2) ∈ spec.programs) (hne : n1 ≠ n2)
    (hs1 : candidateSlot p1 = some s) (hs2 : candidateSlot p2 = some s) :
    ∃ s2, removeUnreachableTailcalls spec = .error (.duplicateTailCallIndex s2) := by
  obtain ⟨s2, herr⟩ :=
    classifyAux_err_of_dup spec.programs [] [] n1 n2 p1 p2 s h1 h2 hne hs1 hs2
  refine ⟨s2, ?_⟩
  simp only [removeUnreachableTailcalls, tailcallFixpoint, classifyTailcalls, herr]

def c8p1 : ProgramSpec := ⟨"d1", "2/4", .schedCLS, []⟩

def c8p2 : ProgramSpec := ⟨"d2", "2/4", .schedCLS, []⟩

def c8spec : CollectionSpec := ⟨[("d1", c8p1), ("d2", c8p2)], [], [], .little⟩

theorem removeUnreachable_duplicate_slot_error_witness :
    ∃ s2, removeUnreachableTailcalls c8spec = .error (.duplicateTailCallIndex s2) :=
  removeUnreachable_duplicate_slot_error c8spec "d1" "d2" c8p1 c8p2 4
    (by decide) (by decide) (by decide) (by decide) (by decide)

/-! ## C9: unresolved static tail calls are hard errors -/

theorem alookup_isSome_keys_eq {β : Type} {l1 l2 : List (Nat × β)}
    (h : l1.map Prod.fst = l2.map Prod.fst) (k : Nat) :
    ((alookup k l1).isSome = true) ↔ ((alookup k l2).isSome = true) := by
  rw [alookup_isSome_iff_mem, alookup_isSome_iff_mem, h]

theorem alookup_none_keys_eq {β : Type} {l1 l2 : List (Nat × β)}
    (h : l1.map Prod.fst = l2.map Prod.fst) (k : Nat) :
    (alookup k l1 = none) ↔ (alookup k l2 = none) := by
  rw [alookup_eq_none, alookup_eq_none, h]

theorem visit_keys {p : ProgramSpec} {tcs tcs2 : List (Nat × TailCall)}
    (h : visit p tcs = .ok tcs2) : tcs2.map Prod.fst = tcs.map Prod.fst :=
  keys_of_skel (skel_of_frame (visit_frame h))

theorem setReferenced_keys (s : Nat) (tcs : List (Nat × TailCall)) :
    (setReferenced s tcs).map Prod.fst = tcs.map Prod.fst :=
  keys_of_skel (skel_of_frame (setReferenced_frame s tcs))

theorem visitGo_ok_resolves (p : ProgramSpec) : ∀ (idxs : List Nat)
    (tcs tcs2 : List (Nat × TailCall)), visitGo p tcs idxs = .ok tcs2 →
    ∀ i ∈ idxs, ∀ c, tailCallTarget p.instructions i = some ("cilium_calls", c) →
    (alookup (toU32 c) tcs).isSome = true := by
  intro idxs
  induction idxs with
  | nil => intro tcs tcs2 h i hi; simp at hi
  | cons j rest ih =>
    intro tcs tcs2 h i hi c hc
    rw [visitGo] at h
    rcases List.mem_cons.mp hi with rfl | hmem
    · rw [hc] at h
      simp only [if_true, reduceIte] at h
      rcases hl : alookup (toU32 c) tcs with _ | tc
      · rw [hl] at h
        simp at h
      · rfl
    · rcases ht : tailCallTarget p.instructions j with _ | rc <;> simp only [ht] at h
      · exact ih _ _ h i hmem c hc
      · split at h
        · split at h
          · simp at h
          · have hres := ih _ _ h i hmem c hc
            exact (alookup_isSome_keys_eq (setReferenced_keys (toU32 rc.2) tcs) (toU32 c)).mp hres
        · exact ih _ _ h i hmem c hc

theorem visitGo_error_shape (p : ProgramSpec) : ∀ (idxs : List Nat)
    (tcs : List (Nat × TailCall)) (e : BpfError), visitGo p tcs idxs = .error e →
    ∃ i c, i ∈ idxs ∧ e = .unknownTailCallIndex p.sectionName p.name c i ∧
      tailCallTarget p.instructions i = some ("cilium_calls", c) ∧
      alookup (toU32 c) tcs = none := by
  intro idxs
  induction idxs with
  | nil => intro tcs e h; rw [visitGo] at h; cases h
  | cons j rest ih =>
    intro tcs e h
    rw [visitGo] at h
    rcases ht : tailCallTarget p.instructions j with _ | rc <;> simp only [ht] at h
    · obtain ⟨i, c, hi, he, htgt, hnone⟩ := ih _ _ h
      exact ⟨i, c, List.mem_cons_of_mem j hi, he, htgt, hnone⟩
    · rcases rc with ⟨ref, c0⟩
      by_cases hr : ref = "cilium_calls"
      · subst hr
        rw [if_pos rfl] at h
        rcases hl : alookup (toU32 c0) tcs with _ | tc
        · rw [hl] at h
          injection h with h1
          exact ⟨j, c0, List.mem_cons_self j rest, h1.symm, ht, hl⟩
        · rw [hl] at h
          obtain ⟨i, c, hi, he, htgt, hnone⟩ := ih _ _ h
          have hnone2 : alookup (toU32 c) tcs = none :=
            (alookup_none_keys_eq (setReferenced_keys (toU32 c0) tcs) (toU32 c)).mp hnone
          exact ⟨i, c, List.mem_cons_of_mem j hi, he, htgt, hnone2⟩
      · rw [if_neg hr] at h
        obtain ⟨i, c, hi, he, htgt, hnone⟩ := ih _ _ h
        exact ⟨i, c, List.mem_cons_of_mem j hi, he, htgt, hnone⟩

theorem tailCallTarget_mem_range {insns : List Instruction} {i : Nat} {rc : String × Int}
    (h : tailCallTarget insns i = some rc) :
    i ∈ List.range' 3 (insns.length - 3) := by
  unfold tailCallTarget at h
  split at h
  · rename_i hcond
    have hmem : 3 ≤ i ∧ i < 3 + (insns.length - 3) := by omega
    exact List.mem_range'_1.mpr hmem
  · cases h

theorem visit_ok_resolves {p : ProgramSpec} {tcs tcs2 : List (Nat × TailCall)}
    (h : visit p tcs = .ok tcs2) :
    ∀ i c, tailCallTarget p.instructions i = some ("cilium_calls", c) →
    (alookup (toU32 c) tcs).isSome = true := by
  intro i c hc
  exact visitGo_ok_resolves p _ tcs tcs2 h i (tailCallTarget_mem_range hc) c hc

theorem visit_error_shape {p : ProgramSpec} {tcs : List (Nat × TailCall)} {e : BpfError}
    (h : visit p tcs = .error e) :
    ∃ i c, e = .unknownTailCallIndex p.sectionName p.name c i ∧
      tailCallTarget p.instructions i = some ("cilium_calls", c) ∧
      alookup (toU32 c) tcs = none := by
  obtain ⟨i, c, _, he, htgt, hnone⟩ := visitGo_error_shape p _ tcs e h
  exact ⟨i, c, he, htgt, hnone⟩

theorem visitAll_bad : ∀ (eps : List ProgramSpec) (tcs : List (Nat × TailCall)),
    (∃ p ∈ eps, ∃ i c, tailCallTarget p.instructions i = some ("cilium_calls", c) ∧
      alookup (toU32 c) tcs = none) →
    ∃ q i c, q ∈ eps ∧
      visitAll eps tcs = .error (.unknownTailCallIndex q.sectionName q.name c i) ∧
      tailCallTarget q.instructions i = some ("cilium_calls", c) ∧
      alookup (toU32 c) tcs = none := by
  intro eps
  induction eps with
  | nil => intro tcs hbad; simp at hbad
  | cons q rest ih =>
    intro tcs hbad
    rcases hv : visit q tcs with e | tcs2
    · obtain ⟨i, c, he, htgt, hnone⟩ := visit_error_shape hv
      subst he
      refine ⟨q, i, c, List.mem_cons_self q rest, ?_, htgt, hnone⟩
      rw [visitAll, hv]
    · obtain ⟨p, hp, i, c, htgt, hnone⟩ := hbad
      rcases List.mem_cons.mp hp with rfl | hmem
      · have := visit_ok_resolves hv i c htgt
        rw [hnone] at this
        cases this
      · have hkeys := visit_keys hv
        have hnone2 : alookup (toU32 c) tcs2 = none :=
          (alookup_none_keys_eq hkeys (toU32 c)).mpr hnone
        obtain ⟨q2, i2, c2, hq2, herr, htgt2, hnone3⟩ :=
          ih tcs2 ⟨p, hmem, i, c, htgt, hnone2⟩
        have hnone4 : alookup (toU32 c2) tcs = none :=
          (alookup_none_keys_eq hkeys (toU32 c2)).mp hnone3
        refine ⟨q2, i2, c2, List.mem_cons_of_mem q hq2, ?_, htgt2, hnone4⟩
        rw [visitAll, hv]
        exact herr

theorem frame_mem_transfer {l1 l2 : List (Nat × TailCall)}
    (h : l1.map tcFrame = l2.map tcFrame) {u : Nat × TailCall} (hu : u ∈ l1) :
    ∃ y ∈ l2, y.1 = u.1 ∧ y.2.visited = u.2.visited ∧ y.2.tcSpec = u.2.tcSpec := by
  have hm : tcFrame u ∈ l2.map tcFrame := by
    rw [← h]
    exact List.mem_map_of_mem tcFrame hu
  obtain ⟨y, hy, hfy⟩ := List.mem_map.mp hm
  refine ⟨y, hy, ?_, ?_, ?_⟩
  · have h2 := congrArg (fun x : Nat × Bool × ProgramSpec => x.1) hfy
    simpa [tcFrame] using h2
  · have h2 := congrArg (fun x : Nat × Bool × ProgramSpec => x.2.1) hfy
    simpa [tcFrame] using h2
  · have h2 := congrArg (fun x : Nat × Bool × ProgramSpec => x.2.2) hfy
    simpa [tcFrame] using h2

theorem skel_mem_transfer {l1 l2 : List (Nat × TailCall)}
    (h : l1.map tcSkel = l2.map tcSkel) {u : Nat × TailCall} (hu : u ∈ l1) :
    ∃ y ∈ l2, y.1 = u.1 ∧ y.2.tcSpec = u.2.tcSpec := by
  have hm : tcSkel u ∈ l2.map tcSkel := by
    rw [← h]
    exact List.mem_map_of_mem tcSkel hu
  obtain ⟨y, hy, hfy⟩ := List.mem_map.mp hm
  refine ⟨y, hy, ?_, ?_⟩
  · have h2 := congrArg (fun x : Nat × ProgramSpec => x.1) hfy
    simpa [tcSkel] using h2
  · have h2 := congrArg (fun x : Nat × ProgramSpec => x.2) hfy
    simpa [tcSkel] using h2

theorem classifyAux_visited_false : ∀ (progs : List (String × ProgramSpec))
    (eps : List ProgramSpec) (tcs : List (Nat × TailCall)) (eps2 : List ProgramSpec)
    (tcs2 : List (Nat × TailCall)),
    classifyAux progs eps tcs = .ok (eps2, tcs2) →
    (∀ t ∈ tcs, t.2.visited = false) → ∀ t ∈ tcs2, t.2.visited = false := by
  intro progs
  induction progs with
  | nil =>
    intro eps tcs eps2 tcs2 h hv
    rw [classifyAux] at h
    injection h with h1
    injection h1 with ha hb
    subst hb
    exact hv
  | cons e rest ih =>
    intro eps tcs eps2 tcs2 h hv
    rw [classifyAux] at h
    rcases hc : candidateSlot e.2 with _ | slot <;> simp only [hc] at h
    · exact ih _ _ _ _ h hv
    · rcases hl : alookup slot tcs with _ | tc <;> simp only [hl] at h
      · refine ih _ _ _ _ h ?_
        intro t ht
        rcases List.mem_append.mp ht with h1 | h1
        · exact hv t h1
        · have h2 : t = (slot, (⟨false, false, e.2⟩ : TailCall)) :=
            List.mem_singleton.mp h1
          rw [h2]
      · simp at h

theorem visitAll_state_facts {spec : CollectionSpec} {eps : List ProgramSpec}
    {tcs0 tcs1 : List (Nat × TailCall)}
    (hcl : classifyTailcalls spec.programs = .ok (eps, tcs0))
    (hva : visitAll eps tcs0 = .ok tcs1) :
    (tcs1.map Prod.fst).Nodup ∧ tcs1.map Prod.fst = tcs0.map Prod.fst ∧
      ∀ t ∈ tcs1, t.2.visited = false := by
  have hnd0 : (tcs0.map Prod.fst).Nodup :=
    classifyAux_nodup spec.programs [] [] eps tcs0 hcl List.nodup_nil
  have hkeys : tcs1.map Prod.fst = tcs0.map Prod.fst :=
    keys_of_skel (skel_of_frame (visitAll_frame eps tcs0 tcs1 hva))
  have hv0 : ∀ t ∈ tcs0, t.2.visited = false :=
    classifyAux_visited_false spec.programs [] [] eps tcs0 hcl (by simp)
  refine ⟨by rw [hkeys]; exact hnd0, hkeys, ?_⟩
  intro t ht
  obtain ⟨y, hy, _, hyv, _⟩ := frame_mem_transfer (visitAll_frame eps tcs0 tcs1 hva) ht
  rw [← hyv]
  exact hv0 y hy

theorem setReferenced_refAt (s k : Nat) (tcs : List (Nat × TailCall))
    (h : ∃ u ∈ tcs, u.1 = k ∧ u.2.referenced = true) :
    ∃ u ∈ setReferenced s tcs, u.1 = k ∧ u.2.referenced = true := by
  obtain ⟨u, hu, h1, h2⟩ := h
  refine ⟨_, List.mem_map_of_mem _ hu, ?_, ?_⟩
  · by_cases hs : u.1 = s
    · rw [if_pos hs]
      exact h1
    · rw [if_neg hs]
      exact h1
  · by_cases hs : u.1 = s
    · rw [if_pos hs]
    · rw [if_neg hs]
      exact h2

theorem markVisited_refAt (s k : Nat) (tcs : List (Nat × TailCall))
    (h : ∃ u ∈ tcs, u.1 = k ∧ u.2.referenced = true) :
    ∃ u ∈ markVisited s tcs, u.1 = k ∧ u.2.referenced = true := by
  obtain ⟨u, hu, h1, h2⟩ := h
  refine ⟨_, List.mem_map_of_mem _ hu, ?_, ?_⟩
  · by_cases hs : u.1 = s
    · rw [if_pos hs]
      exact h1
    · rw [if_neg hs]
      exact h1
  · by_cases hs : u.1 = s
    · rw [if_pos hs]
      exact h2
    · rw [if_neg hs]
      exact h2

theorem visitGo_refAt (p : ProgramSpec) (idxs : List Nat) :
    ∀ tcs tcs2 k, visitGo p tcs idxs = .ok tcs2 →
    (∃ u ∈ tcs, u.1 = k ∧ u.2.referenced = true) →
    ∃ u ∈ tcs2, u.1 = k ∧ u.2.referenced = true := by
  induction idxs with
  | nil =>
    intro tcs tcs2 k h hex
    rw [visitGo] at h
    cases h
    exact hex
  | cons i rest ih =>
    intro tcs tcs2 k h hex
    rw [visitGo] at h
    split at h
    · exact ih _ _ _ h hex
    · split at h
      · split at h
        · cases h
        · exact ih _ _ _ h (setReferenced_refAt _ _ _ hex)
      · exact ih _ _ _ h hex

theorem resetLoopFuel_refAt : ∀ (n : Nat) (tcs tcs2 : List (Nat × TailCall)) (k : Nat),
    resetLoopFuel n tcs = some (.ok tcs2) →
    (∃ u ∈ tcs, u.1 = k ∧ u.2.referenced = true) →
    ∃ u ∈ tcs2, u.1 = k ∧ u.2.referenced = true := by
  intro n
  induction n with
  | zero => intro tcs tcs2 k h; cases h
  | succ n ih =>
    intro tcs tcs2 k h hex
    rw [resetLoopFuel] at h
    rcases hf : tcs.find? (fun t => t.2.referenced && !t.2.visited) with _ | t0 <;>
      simp only [hf] at h
    · injection h with h1
      injection h1 with h2
      subst h2
      exact hex
    · rcases hv : visit t0.2.tcSpec tcs with e | tcs3 <;> simp only [hv] at h
      · simp at h
      · exact ih _ _ _ h (markVisited_refAt _ _ _ (visitGo_refAt _ _ _ _ _ hv hex))

theorem visitAll_error_shape : ∀ (eps : List ProgramSpec) (tcs : List (Nat × TailCall))
    (e : BpfError), visitAll eps tcs = .error e →
    ∃ (q : ProgramSpec) (i : Nat) (c : Int), e = .unknownTailCallIndex q.sectionName q.name c i ∧
      tailCallTarget q.instructions i = some ("cilium_calls", c) ∧
      alookup (toU32 c) tcs = none := by
  intro eps
  induction eps with
  | nil => intro tcs e h; rw [visitAll] at h; cases h
  | cons q rest ih =>
    intro tcs e h
    rw [visitAll] at h
    rcases hv : visit q tcs with e0 | tcs3 <;> simp only [hv] at h
    · injection h with h1
      subst h1
      obtain ⟨i, c, he, htgt, hnone⟩ := visit_error_shape hv
      exact ⟨q, i, c, he, htgt, hnone⟩
    · obtain ⟨q2, i, c, he, htgt, hnone⟩ := ih _ _ h
      exact ⟨q2, i, c, he, htgt, (alookup_none_keys_eq (visit_keys hv) (toU32 c)).mp hnone⟩

theorem resetLoopFuel_error_shape : ∀ (n : Nat) (tcs : List (Nat × TailCall))
    (e : BpfError), resetLoopFuel n tcs = some (.error e) →
    ∃ (q : ProgramSpec) (i : Nat) (c : Int), e = .unknownTailCallIndex q.sectionName q.name c i ∧
      tailCallTarget q.instructions i = some ("cilium_calls", c) ∧
      alookup (toU32 c) tcs = none := by
  intro n
  induction n with
  | zero => intro tcs e h; cases h
  | succ n ih =>
    intro tcs e h
    rw [resetLoopFuel] at h
    rcases hf : tcs.find? (fun t => t.2.referenced && !t.2.visited) with _ | t0 <;>
      simp only [hf] at h
    · simp at h
    · rcases hv : visit t0.2.tcSpec tcs with e0 | tcs3 <;> simp only [hv] at h
      · injection h with h1
        injection h1 with h2
        subst h2
        obtain ⟨i, c, he, htgt, hnone⟩ := visit_error_shape hv
        exact ⟨t0.2.tcSpec, i, c, he, htgt, hnone⟩
      · obtain ⟨q2, i, c, he, htgt, hnone⟩ := ih _ _ h
        have hkeys : (markVisited t0.1 tcs3).map Prod.fst = tcs.map Prod.fst := by
          rw [keys_of_skel (markVisited_skel _ _),
            keys_of_skel (skel_of_frame (visit_frame hv))]
        exact ⟨q2, i, c, he, htgt, (alookup_none_keys_eq hkeys (toU32 c)).mp hnone⟩

theorem visitAll_ok_resolves : ∀ (eps : List ProgramSpec) (tcs tcs2 : List (Nat × TailCall)),
    visitAll eps tcs = .ok tcs2 →
    ∀ p ∈ eps, ∀ i c, tailCallTarget p.instructions i = some ("cilium_calls", c) →
    (alookup (toU32 c) tcs).isSome = true := by
  intro eps
  induction eps with
  | nil => intro tcs tcs2 h p hp; simp at hp
  | cons q rest ih =>
    intro tcs tcs2 h p hp i c hc
    rw [visitAll] at h
    rcases hv : visit q tcs with e0 | tcs3 <;> simp only [hv] at h
    · cases h
    · rcases List.mem_cons.mp hp with rfl | hmem
      · exact visit_ok_resolves hv i c hc
      · exact (alookup_isSome_keys_eq (visit_keys hv) (toU32 c)).mp (ih _ _ h p hmem i c hc)

theorem resetLoopFuel_ok_resolves : ∀ (n : Nat) (tcs tcs2 : List (Nat × TailCall)),
    (tcs.map Prod.fst).Nodup →
    (∀ u ∈ tcs, u.2.visited = true →
      ∀ i c, tailCallTarget u.2.tcSpec.instructions i = some ("cilium_calls", c) →
      (alookup (toU32 c) tcs).isSome = true) →
    resetLoopFuel n tcs = some (.ok tcs2) →
    ∀ t ∈ tcs2, t.2.referenced = true →
    ∀ i c, tailCallTarget t.2.tcSpec.instructions i = some ("cilium_calls", c) →
    (alookup (toU32 c) tcs).isSome = true := by
  intro n
  induction n with
  | zero => intro tcs tcs2 _ _ h; cases h
  | succ n ih =>
    intro tcs tcs2 hnd hinv h t ht href i c hedge
    rw [resetLoopFuel] at h
    rcases hf : tcs.find? (fun t => t.2.referenced && !t.2.visited) with _ | t0 <;>
      simp only [hf] at h
    · injection h with h1
      injection h1 with h2
      subst h2
      have hnone := List.find?_eq_none.mp hf t ht
      have hvis : t.2.visited = true := by
        cases hbv : t.2.visited with
        | true => rfl
        | false =>
          exfalso
          exact hnone (by simp [href, hbv])
      exact hinv t ht hvis i c hedge
    · rcases hv : visit t0.2.tcSpec tcs with e0 | tcs3 <;> simp only [hv] at h
      · simp at h
      · have hframe3 := visit_frame hv
        have hkeys3 : tcs3.map Prod.fst = tcs.map Prod.fst :=
          keys_of_skel (skel_of_frame hframe3)
        have hkeys4 : (markVisited t0.1 tcs3).map Prod.fst = tcs.map Prod.fst := by
          rw [keys_of_skel (markVisited_skel _ _), hkeys3]
        have hnd4 : ((markVisited t0.1 tcs3).map Prod.fst).Nodup := by
          rw [hkeys4]; exact hnd
        have ht0mem : t0 ∈ tcs := List.mem_of_find?_eq_some hf
        have hinv4 : ∀ u ∈ markVisited t0.1 tcs3, u.2.visited = true →
            ∀ i2 c2, tailCallTarget u.2.tcSpec.instructions i2 =
              some ("cilium_calls", c2) →
            (alookup (toU32 c2) (markVisited t0.1 tcs3)).isSome = true := by
          intro u hu huv i2 c2 hedge2
          have hu2 : u ∈ tcs3.map
              (fun x => if x.1 = t0.1 then (x.1, { x.2 with visited := true }) else x) :=
            hu
          obtain ⟨x, hx, hxu⟩ := List.mem_map.mp hu2
          obtain ⟨y, hy, hy1, hyv, hys⟩ := frame_mem_transfer hframe3 hx
          by_cases hx1 : x.1 = t0.1
          · rw [if_pos hx1] at hxu
            have huspec : u.2.tcSpec = x.2.tcSpec := by rw [← hxu]
            have hyt0 : y = t0 :=
              List.inj_on_of_nodup_map hnd hy ht0mem (by rw [hy1, hx1])
            have hspec : u.2.tcSpec = t0.2.tcSpec := by rw [huspec, ← hys, hyt0]
            have hedge3 : tailCallTarget t0.2.tcSpec.instructions i2 =
                some ("cilium_calls", c2) := by
              rw [← hspec]
              exact hedge2
            exact (alookup_isSome_keys_eq hkeys4 (toU32 c2)).mpr
              (visit_ok_resolves hv i2 c2 hedge3)
          · rw [if_neg hx1] at hxu
            have hxv : x.2.visited = true := by rw [hxu]; exact huv
            have hyvis : y.2.visited = true := by rw [hyv, hxv]
            have hspec : u.2.tcSpec = y.2.tcSpec := by rw [← hxu, ← hys]
            have hedge3 : tailCallTarget y.2.tcSpec.instructions i2 =
                some ("cilium_calls", c2) := by
              rw [← hspec]
              exact hedge2
            exact (alookup_isSome_keys_eq hkeys4 (toU32 c2)).mpr
              (hinv y hy hyvis i2 c2 hedge3)
        have hres := ih (markVisited t0.1 tcs3) tcs2 hnd4 hinv4 h t ht href i c hedge
        exact (alookup_isSome_keys_eq hkeys4 (toU32 c)).mp hres

theorem resetLoop_fuel_eq {tcs1 : List (Nat × TailCall)}
    {r : Except BpfError (List (Nat × TailCall))} (h : resetLoop tcs1 = r) :
    resetLoopFuel (countUnvisited tcs1 + 1) tcs1 = some r := by
  unfold resetLoop at h
  rcases hr0 : resetLoopFuel (countUnvisited tcs1 + 1) tcs1 with _ | r0 <;> rw [hr0] at h
  · have hs := resetLoopFuel_isSome (countUnvisited tcs1 + 1) tcs1 (Nat.lt_succ_self _)
    rw [hr0] at hs
    simp at hs
  · exact congrArg some h

/-- C9: if, during the reachability scan, a recognized static tail call into
the calls map references a truncated slot index with no registered candidate,
removeUnreachableTailcalls returns the hard unknown-index error -- both when
the unresolved call sits in an entrypoint scanned by the first pass and when
it sits in a referenced tail-call candidate scanned by the goto-reset pass;
whenever the scan succeeds, every recognized call of every entrypoint and of
every referenced candidate resolved to a registered slot, and every error the
function returns after a successful classification is the unknown-index
error, whose payload names the section name, program name, constant and
instruction offset of a genuinely unresolved recognized call: the unresolved
reference is never silently skipped. -/
theorem removeUnreachable_unknown_slot_error (spec : CollectionSpec)
    (eps : List ProgramSpec) (tcs0 : List (Nat × TailCall))
    (hcl : classifyTailcalls spec.programs = .ok (eps, tcs0)) :
    (∀ p ∈ eps,
      (∃ i c, tailCallTarget p.instructions i = some ("cilium_calls", c) ∧
        alookup (toU32 c) tcs0 = none) →
      ∃ q i c, q ∈ eps ∧
        removeUnreachableTailcalls spec =
          .error (.unknownTailCallIndex q.sectionName q.name c i) ∧
        tailCallTarget q.instructions i = some ("cilium_calls", c) ∧
        alookup (toU32 c) tcs0 = none) ∧
    (∀ tcs1, visitAll eps tcs0 = .ok tcs1 →
      ∀ t ∈ tcs1, t.2.referenced = true →
      (∃ i c, tailCallTarget t.2.tcSpec.instructions i = some ("cilium_calls", c) ∧
        alookup (toU32 c) tcs0 = none) →
      ∃ (q : ProgramSpec) (i : Nat) (c : Int),
        removeUnreachableTailcalls spec =
          .error (.unknownTailCallIndex q.sectionName q.name c i) ∧
        tailCallTarget q.instructions i = some ("cilium_calls", c) ∧
        alookup (toU32 c) tcs0 = none) ∧
    (∀ tcs, tailcallFixpoint spec = .ok tcs →
      (∀ p ∈ eps, ∀ i c,
        tailCallTarget p.instructions i = some ("cilium_calls", c) →
        (alookup (toU32 c) tcs0).isSome = true) ∧
      ∀ t ∈ tcs, t.2.referenced = true → ∀ i c,
        tailCallTarget t.2.tcSpec.instructions i = some ("cilium_calls", c) →
        (alookup (toU32 c) tcs0).isSome = true) ∧
    ∀ e, removeUnreachableTailcalls spec = .error e →
      ∃ (q : ProgramSpec) (i : Nat) (c : Int), e = .unknownTailCallIndex q.sectionName q.name c i ∧
        tailCallTarget q.instructions i = some ("cilium_calls", c) ∧
        alookup (toU32 c) tcs0 = none := by
  refine ⟨?_, ?_, ?_, ?_⟩
  · intro p hp hbad
    obtain ⟨i0, c0, htgt0, hnone0⟩ := hbad
    obtain ⟨q, i, c, hq, herr, htgt, hnone⟩ :=
      visitAll_bad eps tcs0 ⟨p, hp, i0, c0, htgt0, hnone0⟩
    refine ⟨q, i, c, hq, ?_, htgt, hnone⟩
    simp only [removeUnreachableTailcalls, tailcallFixpoint, hcl, herr]
  · intro tcs1 hva t ht href hbad
    obtain ⟨hnd1, hkeys10, hv1⟩ := visitAll_state_facts hcl hva
    rcases hrl : resetLoop tcs1 with e2 | tcsF
    · have hr := resetLoop_fuel_eq hrl
      obtain ⟨q, i, c, he, htgt, hnone⟩ := resetLoopFuel_error_shape _ tcs1 e2 hr
      refine ⟨q, i, c, ?_, htgt, (alookup_none_keys_eq hkeys10 (toU32 c)).mp hnone⟩
      rw [← he]
      simp only [removeUnreachableTailcalls, tailcallFixpoint, hcl, hva, hrl]
    · exfalso
      obtain ⟨i, c, hedge, hnone⟩ := hbad
      have hr := resetLoop_fuel_eq hrl
      obtain ⟨u, huF, hu1, huref⟩ :=
        resetLoopFuel_refAt _ tcs1 tcsF t.1 hr ⟨t, ht, rfl, href⟩
      obtain ⟨y, hy, hy1, hyspec⟩ :=
        skel_mem_transfer (resetLoopFuel_skel _ _ _ hr) huF
      have hyt : y = t :=
        List.inj_on_of_nodup_map hnd1 hy ht (by rw [hy1, hu1])
      have huspec : u.2.tcSpec = t.2.tcSpec := by rw [← hyspec, hyt]
      have hinv1 : ∀ v ∈ tcs1, v.2.visited = true →
          ∀ i2 c2, tailCallTarget v.2.tcSpec.instructions i2 =
            some ("cilium_calls", c2) →
          (alookup (toU32 c2) tcs1).isSome = true := by
        intro v hv hvv
        rw [hv1 v hv] at hvv
        cases hvv
      have hedge2 : tailCallTarget u.2.tcSpec.instructions i =
          some ("cilium_calls", c) := by
        rw [huspec]
        exact hedge
      have hres :=
        resetLoopFuel_ok_resolves _ tcs1 tcsF hnd1 hinv1 hr u huF huref i c hedge2
      rw [alookup_isSome_keys_eq hkeys10 (toU32 c), hnone] at hres
      simp at hres
  · intro tcs hfx
    rw [tailcallFixpoint] at hfx
    simp only [hcl] at hfx
    rcases hva : visitAll eps tcs0 with e2 | tcs1 <;> simp only [hva] at hfx
    · cases hfx
    · obtain ⟨hnd1, hkeys10, hv1⟩ := visitAll_state_facts hcl hva
      refine ⟨visitAll_ok_resolves eps tcs0 tcs1 hva, ?_⟩
      intro t ht href i c hedge
      have hr := resetLoop_fuel_eq hfx
      have hinv1 : ∀ v ∈ tcs1, v.2.visited = true →
          ∀ i2 c2, tailCallTarget v.2.tcSpec.instructions i2 =
            some ("cilium_calls", c2) →
          (alookup (toU32 c2) tcs1).isSome = true := by
        intro v hv hvv
        rw [hv1 v hv] at hvv
        cases hvv
      have hres :=
        resetLoopFuel_ok_resolves _ tcs1 tcs hnd1 hinv1 hr t ht href i c hedge
      exact (alookup_isSome_keys_eq hkeys10 (toU32 c)).mp hres
  · intro e herr
    rw [removeUnreachableTailcalls] at herr
    rcases hfx : tailcallFixpoint spec with e2 | tcsX <;> simp only [hfx] at herr
    · injection herr with h1
      subst h1
      rw [tailcallFixpoint] at hfx
      simp only [hcl] at hfx
      rcases hva : visitAll eps tcs0 with e3 | tcs1 <;> simp only [hva] at hfx
      · injection hfx with h2
        subst h2
        exact visitAll_error_shape eps tcs0 _ hva
      · obtain ⟨hnd1, hkeys10, hv1⟩ := visitAll_state_facts hcl hva
        have hr := resetLoop_fuel_eq hfx
        obtain ⟨q, i, c, he, htgt, hnone⟩ := resetLoopFuel_error_shape _ tcs1 _ hr
        exact ⟨q, i, c, he, htgt, (alookup_none_keys_eq hkeys10 (toU32 c)).mp hnone⟩
    · simp at herr

def c9prog : ProgramSpec :=
  ⟨"ep", "entry", .schedCLS, [iNop, iLdMap "cilium_calls", iMovR3 1, iCall]⟩

def c9spec : CollectionSpec := ⟨[("ep", c9prog)], [], [], .little⟩

def c9bEp : ProgramSpec :=
  ⟨"ep", "entry", .schedCLS, [iNop, iLdMap "cilium_calls", iMovR3 7, iCall]⟩

def c9bTc : ProgramSpec :=
  ⟨"tc7", "2/7", .schedCLS, [iNop, iLdMap "cilium_calls", iMovR3 42, iCall]⟩

def c9bspec : CollectionSpec := ⟨[("ep", c9bEp), ("tc7", c9bTc)], [], [], .little⟩

theorem removeUnreachable_unknown_slot_error_witness :
    (∃ q i c, q ∈ [c9prog] ∧
      removeUnreachableTailcalls c9spec =
        .error (.unknownTailCallIndex q.sectionName q.name c i) ∧
      tailCallTarget q.instructions i = some ("cilium_calls", c) ∧
      alookup (toU32 c) ([] : List (Nat × TailCall)) = none) ∧
    (∃ (q : ProgramSpec) (i : Nat) (c : Int),
      removeUnreachableTailcalls c9bspec =
        .error (.unknownTailCallIndex q.sectionName q.name c i) ∧
      tailCallTarget q.instructions i = some ("cilium_calls", c) ∧
      alookup (toU32 c) [(7, (⟨false, false, c9bTc⟩ : TailCall))] = none) :=
  ⟨(removeUnreachable_unknown_slot_error c9spec [c9prog] [] (by decide)).1
      c9prog (by decide) ⟨3, 1, by decide, rfl⟩,
   (removeUnreachable_unknown_slot_error c9bspec [c9bEp]
        [(7, ⟨false, false, c9bTc⟩)] (by decide)).2.1
      [(7, ⟨true, false, c9bTc⟩)] (by decide)
      (7, ⟨true, false, c9bTc⟩) (by decide) rfl ⟨3, 42, by decide, by decide⟩⟩

/-! ## C1: pruning keeps exactly the entrypoints and referenced candidates -/

theorem tcs_entry_origin {spec : CollectionSpec} {tcs : List (Nat × TailCall)}
    (hskel : tcs.map tcSkel = spec.programs.filterMap candEntry) :
    ∀ t ∈ tcs, ∃ a ∈ spec.programs, candidateSlot a.2 = some t.1 ∧ a.2 = t.2.tcSpec := by
  intro t ht
  have hmem : tcSkel t ∈ spec.programs.filterMap candEntry := by
    rw [← hskel]
    exact List.mem_map_of_mem tcSkel ht
  obtain ⟨a, ha, hfa⟩ := List.mem_filterMap.mp hmem
  obtain ⟨s, hs, hpair⟩ := Option.map_eq_some'.mp hfa
  have h1 : s = t.1 := congrArg Prod.fst hpair
  have h2 : a.2 = t.2.tcSpec := congrArg Prod.snd hpair
  exact ⟨a, ha, h1 ▸ hs, h2⟩

/-- C1: on success, the program set of removeUnreachableTailcalls contains a
program of the input spec exactly when it is an entrypoint (its section name
does not follow the dispatch convention) or it is a candidate whose entry in
the final tail-call table carries a true referenced flag; candidates whose
referenced flag stayed false are exactly the deleted ones. Keys of the
program map are the program names, as the ELF loader guarantees, and are free
of duplicates. -/
theorem removeUnreachable_keeps_exactly (spec spec2 : CollectionSpec)
    (tcs : List (Nat × TailCall))
    (hkeys : ∀ e ∈ spec.programs, e.2.name = e.1)
    (hnodup : (spec.programs.map Prod.fst).Nodup)
    (hfix : tailcallFixpoint spec = .ok tcs)
    (hok : removeUnreachableTailcalls spec = .ok spec2) :
    ∀ e ∈ spec.programs,
      (e ∈ spec2.programs ↔
        candidateSlot e.2 = none ∨
          ∃ s tc, candidateSlot e.2 = some s ∧ alookup s tcs = some tc ∧
            tc.referenced = true) := by
  rw [removeUnreachableTailcalls, hfix] at hok
  injection hok with hok
  subst hok
  -- decompose the fixed point pipeline
  rw [tailcallFixpoint] at hfix
  rcases hcl : classifyTailcalls spec.programs with e0 | ⟨eps, tcs0⟩ <;>
    simp only [hcl] at hfix
  · cases hfix
  rcases hva : visitAll eps tcs0 with e1 | tcs1 <;> simp only [hva] at hfix
  · cases hfix
  -- skeleton and key facts
  have hskel0 : tcs0.map tcSkel = spec.programs.filterMap candEntry := by
    have := classifyAux_skel spec.programs [] [] eps tcs0 hcl
    simpa using this
  have hskel1 : tcs1.map tcSkel = tcs0.map tcSkel :=
    skel_of_frame (visitAll_frame eps tcs0 tcs1 hva)
  have hskel2 : tcs.map tcSkel = tcs1.map tcSkel := resetLoop_ok_skel hfix
  have hskel : tcs.map tcSkel = spec.programs.filterMap candEntry := by
    rw [hskel2, hskel1, hskel0]
  have hnd0 : (tcs0.map Prod.fst).Nodup :=
    classifyAux_nodup spec.programs [] [] eps tcs0 hcl List.nodup_nil
  have hnd : (tcs.map Prod.fst).Nodup := by
    rw [keys_of_skel hskel2, keys_of_skel hskel1]
    exact hnd0
  have hinj := List.inj_on_of_nodup_map hnodup
  -- the deletion filter
  intro e he
  rw [List.mem_filter]
  simp only [he, true_and]
  have hany : ((tcs.any fun t => !t.2.referenced && t.2.tcSpec.name == e.1) = true) ↔
      ∃ t ∈ tcs, t.2.referenced = false ∧ t.2.tcSpec.name = e.1 := by
    rw [List.any_eq_true]
    constructor
    · rintro ⟨t, ht, hb⟩
      rcases Bool.and_eq_true_iff.mp hb with ⟨hr, hn⟩
      refine ⟨t, ht, ?_, ?_⟩
      · simpa using hr
      · simpa using hn
    · rintro ⟨t, ht, hr, hn⟩
      refine ⟨t, ht, ?_⟩
      rw [Bool.and_eq_true_iff]
      constructor
      · simp [hr]
      · simp [hn]
  rcases hc : candidateSlot e.2 with _ | s
  · -- entrypoint: never the name of a candidate entry, hence kept
    simp only [true_or, iff_true]
    rw [Bool.not_eq_eq_eq_not, Bool.not_true]
    rw [← Bool.not_eq_true, hany]
    rintro ⟨t, ht, _, hname⟩
    obtain ⟨a, ha, hsa, hpa⟩ := tcs_entry_origin hskel t ht
    have haname : a.1 = e.1 := by
      rw [← hkeys a ha, hpa, hname]
    have : a = e := hinj ha he haname
    rw [this, hc] at hsa
    cases hsa
  · -- candidate at slot s
    obtain ⟨t0, ht0, hts⟩ : ∃ t ∈ tcs, tcSkel t = (s, e.2) := by
      have : (s, e.2) ∈ spec.programs.filterMap candEntry := by
        refine List.mem_filterMap.mpr ⟨e, he, ?_⟩
        simp [candEntry, hc]
      rw [← hskel] at this
      exact List.mem_map.mp this
    have ht0s : t0.1 = s := congrArg Prod.fst hts
    have ht0p : t0.2.tcSpec = e.2 := congrArg Prod.snd hts
    have hlook : alookup s tcs = some t0.2 := by
      rw [← ht0s]
      exact alookup_mem_of_nodup hnd ht0
    -- uniqueness: any entry whose program name is the key of e is t0
    have huniq : ∀ t ∈ tcs, t.2.tcSpec.name = e.1 → t = t0 := by
      intro t ht hname
      obtain ⟨a, ha, hsa, hpa⟩ := tcs_entry_origin hskel t ht
      have haname : a.1 = e.1 := by
        rw [← hkeys a ha, hpa, hname]
      have hae : a = e := hinj ha he haname
      rw [hae, hc] at hsa
      injection hsa with hsa
      have hkey : t.1 = t0.1 := by rw [ht0s, ← hsa]
      have hinj2 := List.inj_on_of_nodup_map hnd
      exact hinj2 ht ht0 hkey
    rcases href : t0.2.referenced with _ | _
    · -- unreferenced: deleted, and the right side is false
      simp only [reduceCtorEq, false_or]
      constructor
      · intro hkeep
        rw [Bool.not_eq_eq_eq_not, Bool.not_true, ← Bool.not_eq_true, hany] at hkeep
        exfalso
        apply hkeep
        refine ⟨t0, ht0, href, ?_⟩
        rw [ht0p]
        exact hkeys e he
      · rintro ⟨s2, tc2, hs2, hl2, hr2⟩
        injection hs2 with hs2
        subst hs2
        rw [hlook] at hl2
        injection hl2 with hl2
        rw [← hl2] at hr2
        rw [href] at hr2
        cases hr2
    · -- referenced: kept, and the right side holds
      have hkeep : (!(tcs.any fun t => !t.2.referenced && t.2.tcSpec.name == e.1)) = true := by
        rw [Bool.not_eq_eq_eq_not, Bool.not_true, ← Bool.not_eq_true, hany]
        rintro ⟨t, ht, hr, hname⟩
        have := huniq t ht hname
        rw [this, href] at hr
        cases hr
      rw [hkeep]
      simp only [true_iff]
      exact Or.inr ⟨s, t0.2, rfl, hlook, href⟩

def c1ep : ProgramSpec :=
  ⟨"ep", "entry", .schedCLS, [iNop, iLdMap "cilium_calls", iMovR3 7, iCall]⟩

def c1tc7 : ProgramSpec := ⟨"tc7", "2/7", .schedCLS, [iNop, iNop, iNop, iNop]⟩

def c1tc9 : ProgramSpec := ⟨"tc9", "2/9", .schedCLS, [iNop]⟩

def c1spec : CollectionSpec :=
  ⟨[("ep", c1ep), ("tc7", c1tc7), ("tc9", c1tc9)], [], [], .little⟩

def c1tcs : List (Nat × TailCall) :=
  [(7, ⟨true, true, c1tc7⟩), (9, ⟨false, false, c1tc9⟩)]

def c1out : CollectionSpec := ⟨[("ep", c1ep), ("tc7", c1tc7)], [], [], .little⟩

theorem removeUnreachable_keeps_exactly_witness :
    (("tc9", c1tc9) ∈ c1out.programs ↔
      candidateSlot c1tc9 = none ∨
        ∃ s tc, candidateSlot c1tc9 = some s ∧ alookup s c1tcs = some tc ∧
          tc.referenced = true) :=
  removeUnreachable_keeps_exactly c1spec c1out c1tcs (by decide) (by decide)
    (by decide) (by decide) ("tc9", c1tc9) (by decide)

/-! ## C4: program type classification -/

/-- Following the claim wording of C4 (spec-side definition, to be compared
with the code): the default type is that of the first program whose type the
parser already resolved; a name-table match is considered only when no
program at all carries a resolved type. -/
def claimDefaultType (progs : List (String × ProgramSpec)) : Option ProgramType :=
  match progs.find? (fun e => e.2.progType != ProgramType.unspecifiedProgram) with
  | some e => some e.2.progType
  | none =>
    match progs.filterMap (fun e => classifyEntryName e.1) with
    | t :: _ => some t
    | [] => none

def c4p1 : ProgramSpec := ⟨"cil_from_container", "sec1", .unspecifiedProgram, []⟩

def c4p2 : ProgramSpec := ⟨"prog_b", "sec2", .xdp, []⟩

def c4spec : CollectionSpec :=
  ⟨[("cil_from_container", c4p1), ("prog_b", c4p2)], [], [], .little⟩

def c4out : CollectionSpec :=
  ⟨[("cil_from_container", { c4p1 with progType := .schedCLS }), ("prog_b", c4p2)],
   [], [], .little⟩

/-- Counterexample to C4 as stated: in this bundle a program with a resolved
type (xdp) exists, so the claimed default is xdp, yet classifyProgramTypes
walks the programs in iteration order and adopts the name-table type
(schedCLS) of the earlier still-unspecified program, assigning schedCLS, not
xdp, to it: the name-table match is not reserved for bundles without any
resolved program type. -/
theorem classifyProgramTypes_no_resolved_priority :
    claimDefaultType c4spec.programs = some .xdp ∧
    classifyProgramTypes c4spec = .ok c4out ∧
    alookup "cil_from_container" c4out.programs =
      some { c4p1 with progType := .schedCLS } ∧
    ProgramType.schedCLS ≠ ProgramType.xdp :=
  ⟨by decide, by decide, by decide, by decide⟩

/-- C4 amended: classifyProgramTypes adopts as the default the type of the
first program in iteration order that either already carries a resolved type
or whose name matches the fixed table, with no global priority of resolved
types over name matches across programs; it assigns that default to every
program still typed unspecified (so after success no program has the
unspecified type) and leaves every other field alone; it fails exactly when
no program carries a resolved type and no program name matches the table. -/
theorem classifyProgramTypes_amended (spec : CollectionSpec) :
    (inferType spec.programs = .unspecifiedProgram →
      classifyProgramTypes spec = .error .unableToClassifyProgramTypes) ∧
    (inferType spec.programs ≠ .unspecifiedProgram →
      ∃ spec2, classifyProgramTypes spec = .ok spec2 ∧
        spec2.maps = spec.maps ∧ spec2.vars = spec.vars ∧
        spec2.byteOrder = spec.byteOrder ∧
        spec2.programs = spec.programs.map (fun e =>
          if e.2.progType = .unspecifiedProgram then
            (e.1, { e.2 with progType := inferType spec.programs })
          else e) ∧
        ∀ e ∈ spec2.programs, e.2.progType ≠ .unspecifiedProgram) := by
  constructor
  · intro h
    simp only [classifyProgramTypes, h, if_pos]
  · intro h
    refine ⟨{ spec with programs := spec.programs.map (fun e =>
        if e.2.progType = .unspecifiedProgram then
          (e.1, { e.2 with progType := inferType spec.programs })
        else e) }, ?_, rfl, rfl, rfl, rfl, ?_⟩
    · simp only [classifyProgramTypes, if_neg h]
    · intro e he
      obtain ⟨a, ha, hfa⟩ := List.mem_map.mp he
      by_cases hu : a.2.progType = .unspecifiedProgram
      · rw [if_pos hu] at hfa
        rw [← hfa]
        exact h
      · rw [if_neg hu] at hfa
        rw [← hfa]
        exact hu

theorem classifyProgramTypes_amended_witness :
    ∃ spec2, classifyProgramTypes c4spec = .ok spec2 ∧
      spec2.maps = c4spec.maps ∧ spec2.vars = c4spec.vars ∧
      spec2.byteOrder = c4spec.byteOrder ∧
      spec2.programs = c4spec.programs.map (fun e =>
        if e.2.progType = .unspecifiedProgram then
          (e.1, { e.2 with progType := inferType c4spec.programs })
        else e) ∧
      ∀ e ∈ spec2.programs, e.2.progType ≠ .unspecifiedProgram :=
  (classifyProgramTypes_amended c4spec).2 (by decide)

/-! ## C6: constant patching -/

theorem alookup_setVariable (vars : List (String × VariableSpec)) (key : String) (v : Nat) :
    alookup key (setVariable vars key v) =
      (alookup key vars).map (fun vr => { vr with value := v }) := by
  induction vars with
  | nil => rfl
  | cons e rest ih =>
    by_cases h : e.1 = key
    · simp [setVariable, alookup, h]
    · simp only [setVariable, List.map_cons, if_neg h, alookup]
      exact ih

/-- C6: applyConstants fails when the derived variable name (constant prefix
plus field name) does not exist among the spec variables; fails when the
variable exists but lives outside the reserved configuration section; and
when the variable exists in the reserved section the call succeeds and the
variable value afterwards equals the supplied value, with programs and maps
untouched. A nil constants value is a successful no-op. -/
theorem applyConstants_contract :
    (∀ spec, applyConstants spec none = .ok spec) ∧
    (∀ (spec : CollectionSpec) (n : String) (v : Nat),
      alookup (constPfx ++ n) spec.vars = none →
      applyConstants spec (some [(n, v)]) = .error (.nonExistentVariable n)) ∧
    (∀ (spec : CollectionSpec) (n : String) (v : Nat) (vr : VariableSpec),
      alookup (constPfx ++ n) spec.vars = some vr → vr.mapName ≠ configSection →
      applyConstants spec (some [(n, v)]) =
        .error (.variableWrongSection vr.mapName n)) ∧
    (∀ (spec : CollectionSpec) (n : String) (v : Nat) (vr : VariableSpec),
      alookup (constPfx ++ n) spec.vars = some vr → vr.mapName = configSection →
      ∃ spec2, applyConstants spec (some [(n, v)]) = .ok spec2 ∧
        alookup (constPfx ++ n) spec2.vars = some { vr with value := v } ∧
        spec2.programs = spec.programs ∧ spec2.maps = spec.maps) := by
  refine ⟨fun spec => rfl, ?_, ?_, ?_⟩
  · intro spec n v h
    simp only [applyConstants, applyConstantsLoop, h]
  · intro spec n v vr h hs
    simp only [applyConstants, applyConstantsLoop, h, if_pos hs]
  · intro spec n v vr h hs
    have hns : ¬vr.mapName ≠ configSection := fun hh => hh hs
    refine ⟨{ spec with vars := setVariable spec.vars (constPfx ++ n) v }, ?_, ?_, rfl, rfl⟩
    · simp only [applyConstants, applyConstantsLoop, h, if_neg hns]
    · show alookup (constPfx ++ n) (setVariable spec.vars (constPfx ++ n) v) = _
      rw [alookup_setVariable, h]
      rfl

def c6var : VariableSpec := ⟨configSection, 0⟩

def c6spec : CollectionSpec := ⟨[], [], [("__config_FOO", c6var)], .little⟩

theorem applyConstants_contract_witness :
    ∃ spec2, applyConstants c6spec (some [("FOO", 7)]) = .ok spec2 ∧
      alookup (constPfx ++ "FOO") spec2.vars = some { c6var with value := 7 } ∧
      spec2.programs = c6spec.programs ∧ spec2.maps = c6spec.maps :=
  applyConstants_contract.2.2.2 c6spec "FOO" 7 c6var (by decide) rfl

/-! ## C7: the caller spec is never mutated -/

/-- C7: for every specification, options and kernel behaviour, the value of
the caller-owned spec after loadCollection returns is the value passed in:
renames, constant assignments and pinning-flag stripping are threaded through
the internal copy made by specCopy, never through the caller value, so one
normalized spec can be reused for further independent loads. -/
theorem finishLoad_callerSpec (coll : Collection) (tr : List String)
    (orig : CollectionSpec) (a : Nat) :
    (finishLoad coll tr orig a).callerSpec = some orig := by
  rw [finishLoad]
  rcases mapsToReplace tr coll with e | pins <;> rfl

theorem loadCollection_preserves_caller_spec (spec : CollectionSpec)
    (opts : Option CollectionOptions) (k : KernelModel) :
    (loadCollection (some spec) opts k).callerSpec = some spec := by
  rcases hp : prepareSpec spec (opts.getD ⟨none, []⟩) with e | ⟨w, tr⟩
  · rw [loadCollection]
    simp only [hp]
  · rcases h1 : k.attempt1 with e1 | coll1
    · by_cases he : e1 = LoadErr.mapIncompatible
      · subst he
        rcases hi : incompatibleMaps w k with e2 | ⟨names, w2⟩
        · rw [loadCollection]
          simp only [hp, h1, hi, reduceIte]
        · rcases h2 : k.attempt2 with e3 | coll2
          · rw [loadCollection]
            simp only [hp, h1, hi, h2, reduceIte]
          · rw [loadCollection]
            simp only [hp, h1, hi, h2, reduceIte]
            exact finishLoad_callerSpec _ _ _ _
      · rw [loadCollection]
        simp only [hp, h1, if_neg he]
    · rw [loadCollection]
      simp only [hp, h1]
      exact finishLoad_callerSpec _ _ _ _

/-! ## C2: the single retry on pin incompatibility -/

theorem mapsToReplace_names : ∀ (tr : List String) (coll : Collection)
    (pins : List (String × Nat)), mapsToReplace tr coll = .ok pins →
    pins.map Prod.fst = tr := by
  intro tr
  induction tr with
  | nil =>
    intro coll pins h
    rw [mapsToReplace] at h
    injection h with h1
    rw [← h1]
    rfl
  | cons n rest ih =>
    intro coll pins h
    rw [mapsToReplace] at h
    rcases hl : alookup n coll.collMaps with _ | hd <;> simp only [hl] at h
    · cases h
    · rcases hm : mapsToReplace rest coll with e | pins2 <;> simp only [hm] at h
      · cases h
      · injection h with h1
        rw [← h1]
        simp only [List.map_cons]
        rw [ih coll pins2 hm]

/-- C2: once the normalize steps succeed, a first kernel-load failure other
than map incompatibility is returned as-is after exactly one attempt, with no
retry; a first failure with the map-incompatibility condition triggers the
recomputation of the incompatible set and exactly one further load attempt,
and whenever the call then returns a collection, every recomputed
incompatible map name is part of the pin set the returned commit closure
replaces. -/
theorem loadCollection_pin_retry (spec : CollectionSpec) (opts : CollectionOptions)
    (k : KernelModel) (w : CollectionSpec) (toRep : List String)
    (hprep : prepareSpec spec opts = .ok (w, toRep)) :
    (∀ e, k.attempt1 = .error e → e ≠ .mapIncompatible →
      loadCollection (some spec) (some opts) k =
        ⟨.error (.kernel e), 1, some spec⟩) ∧
    (k.attempt1 = .error .mapIncompatible →
      ∀ names, k.incompat = .ok names →
        (loadCollection (some spec) (some opts) k).attempts = 2 ∧
        ∀ coll pins,
          (loadCollection (some spec) (some opts) k).result = .ok (coll, pins) →
          ∀ nm ∈ names, nm ∈ pins.map Prod.fst) := by
  constructor
  · intro e h1 hne
    rw [loadCollection]
    simp only [Option.getD_some, hprep, h1, if_neg hne]
  · intro h1 names hinc
    have hload : loadCollection (some spec) (some opts) k =
        match k.attempt2 with
        | .ok coll => finishLoad coll (toRep ++ names) spec 2
        | .error e3 => ⟨.error (.kernel e3), 2, some spec⟩ := by
      rw [loadCollection]
      simp only [Option.getD_some, hprep, h1, reduceIte, incompatibleMaps, hinc]
    rcases h2 : k.attempt2 with e3 | coll2 <;> simp only [h2] at hload
    · rw [hload]
      exact ⟨rfl, fun coll pins hres => by simp at hres⟩
    · rw [hload, finishLoad]
      rcases hm : mapsToReplace (toRep ++ names) coll2 with e4 | pins2
      · exact ⟨rfl, fun coll pins hres => by simp at hres⟩
      · refine ⟨rfl, fun coll pins hres nm hnm => ?_⟩
        have hres2 : Except.ok (ε := BpfError) (coll2, pins2) = .ok (coll, pins) := hres
        injection hres2 with hres3
        injection hres3 with hc hp
        rw [← hp, mapsToReplace_names _ _ _ hm]
        exact List.mem_append_right toRep hnm

def c2spec : CollectionSpec := ⟨[], [("m", ⟨"m", none, 0, []⟩)], [], .little⟩

def c2opts : CollectionOptions := ⟨none, []⟩

def c2coll : Collection := ⟨[("m", 7)], []⟩

def c2k : KernelModel := ⟨.error .mapIncompatible, .ok c2coll, .ok ["m"]⟩

theorem loadCollection_pin_retry_witness :
    (loadCollection (some c2spec) (some c2opts) c2k).attempts = 2 ∧
    "m" ∈ ([("m", 7)] : List (String × Nat)).map Prod.fst := by
  have h := (loadCollection_pin_retry c2spec c2opts c2k c2spec [] rfl).2 rfl ["m"] rfl
  exact ⟨h.1, h.2 c2coll [("m", 7)] rfl "m" (by decide)⟩

/-! ## C5: legacy trailer decoding and slot assignment -/

theorem iproute2MapsLoop_cons (bo : ByteOrder) (n0 : String) (m0 : MapSpec)
    (rest : List (String × MapSpec)) (idx : List (Nat × String))
    (ms2 : List (String × MapSpec)) (idx2 : List (Nat × String))
    (h : iproute2MapsLoop bo ((n0, m0) :: rest) idx = .ok (ms2, idx2)) :
    ∃ m0x msr idx3, ms2 = (n0, m0x) :: msr ∧
      iproute2MapsLoop bo rest idx3 = .ok (msr, idx2) ∧ ∃ pre, idx3 = idx ++ pre := by
  rw [iproute2MapsLoop] at h
  rcases hx : m0.extra with _ | bs <;> simp only [hx] at h
  · rcases hr : iproute2MapsLoop bo rest idx with e2 | ⟨msr, idxr⟩ <;> simp only [hr] at h
    · cases h
    · injection h with h1
      injection h1 with ha hb
      subst ha
      subst hb
      exact ⟨m0, msr, idx, rfl, hr, [], by simp⟩
  · by_cases hlen : bs.length = 0
    · rw [if_pos hlen] at h
      rcases hr : iproute2MapsLoop bo rest idx with e2 | ⟨msr, idxr⟩ <;> simp only [hr] at h
      · cases h
      · injection h with h1
        injection h1 with ha hb
        subst ha
        subst hb
        exact ⟨m0, msr, idx, rfl, hr, [], by simp⟩
    · rw [if_neg hlen] at h
      rcases hd : decodeTrailer bo bs with _ | ip <;> simp only [hd] at h
      · cases h
      · rcases ip with ⟨id0, pin0⟩
        by_cases hid : id0 ≠ 0
        · rw [if_pos hid] at h
          rcases hal : alookup id0 idx with _ | prev <;> simp only [hal] at h
          · rcases hr : iproute2MapsLoop bo rest (idx ++ [(id0, n0)]) with e2 | ⟨msr, idxr⟩ <;>
              simp only [hr] at h
            · cases h
            · injection h with h1
              injection h1 with ha hb
              subst ha
              subst hb
              exact ⟨_, msr, idx ++ [(id0, n0)], rfl, hr, [(id0, n0)], rfl⟩
          · cases h
        · rw [if_neg hid] at h
          rcases hr : iproute2MapsLoop bo rest idx with e2 | ⟨msr, idxr⟩ <;> simp only [hr] at h
          · cases h
          · injection h with h1
            injection h1 with ha hb
            subst ha
            subst hb
            exact ⟨_, msr, idx, rfl, hr, [], by simp⟩

theorem iproute2MapsLoop_extends : ∀ (bo : ByteOrder) (ms : List (String × MapSpec))
    (idx : List (Nat × String)) (ms2 : List (String × MapSpec)) (idx2 : List (Nat × String)),
    iproute2MapsLoop bo ms idx = .ok (ms2, idx2) → ∃ ext, idx2 = idx ++ ext := by
  intro bo ms
  induction ms with
  | nil =>
    intro idx ms2 idx2 h
    rw [iproute2MapsLoop] at h
    injection h with h1
    injection h1 with ha hb
    exact ⟨[], by rw [← hb]; simp⟩
  | cons e rest ih =>
    intro idx ms2 idx2 h
    obtain ⟨n0, m0⟩ := e
    obtain ⟨m0x, msr, idx3, _, hr, pre, hpre⟩ :=
      iproute2MapsLoop_cons bo n0 m0 rest idx ms2 idx2 h
    obtain ⟨ext, hext⟩ := ih idx3 msr idx2 hr
    exact ⟨pre ++ ext, by rw [hext, hpre, List.append_assoc]⟩

theorem iproute2MapsLoop_found : ∀ (bo : ByteOrder) (ms : List (String × MapSpec))
    (idx : List (Nat × String)) (ms2 : List (String × MapSpec)) (idx2 : List (Nat × String)),
    iproute2MapsLoop bo ms idx = .ok (ms2, idx2) → (ms.map Prod.fst).Nodup →
    ∀ nm m bs id pin, (nm, m) ∈ ms → m.extra = some bs →
      decodeTrailer bo bs = some (id, pin) → id ≠ 0 →
      alookup nm ms2 = some { m with pinning := pin } ∧ alookup id idx2 = some nm := by
  intro bo ms
  induction ms with
  | nil => intro idx ms2 idx2 h hnd nm m bs id pin hmem; simp at hmem
  | cons e rest ih =>
    intro idx ms2 idx2 h hnd nm m bs id pin hmem hx hdec hid
    obtain ⟨n0, m0⟩ := e
    simp only [List.map_cons, List.nodup_cons] at hnd
    rcases List.mem_cons.mp hmem with heq | hmem2
    · -- our map is the head
      injection heq with he1 he2
      subst he1
      subst he2
      rw [iproute2MapsLoop] at h
      simp only [hx] at h
      have hlen : ¬bs.length = 0 := by
        unfold decodeTrailer at hdec
        split at hdec
        · omega
        · cases hdec
      rw [if_neg hlen] at h
      simp only [hdec] at h
      rw [if_pos hid] at h
      rcases hal : alookup id idx with _ | prev <;> simp only [hal] at h
      · rcases hr : iproute2MapsLoop bo rest (idx ++ [(id, nm)]) with e2 | ⟨msr, idxr⟩ <;>
          simp only [hr] at h
        · cases h
        · injection h with h1
          injection h1 with ha hb
          subst ha
          subst hb
          constructor
          · simp [alookup, hx]
          · obtain ⟨ext, hext⟩ := iproute2MapsLoop_extends bo rest _ msr idxr hr
            rw [hext, List.append_assoc]
            rw [alookup_append_right id idx _ hal]
            simp [alookup]
      · cases h
    · -- our map is in the tail
      obtain ⟨m0x, msr, idx3, hms2, hr, pre, hpre⟩ :=
        iproute2MapsLoop_cons bo n0 m0 rest idx ms2 idx2 h
      obtain ⟨hl1, hl2⟩ := ih idx3 msr idx2 hr hnd.2 nm m bs id pin hmem2 hx hdec hid
      have hne : n0 ≠ nm := by
        intro hcc
        exact hnd.1 (hcc ▸ List.mem_map_of_mem Prod.fst hmem2)
      subst hms2
      refine ⟨?_, hl2⟩
      simp only [alookup, hne, if_false]
      exact hl1

theorem appendContent_alookup (key0 : String) (slot : Nat) (pn : String)
    (ms : List (String × MapSpec)) (key : String) :
    alookup key (appendContent key0 slot pn ms) =
      (alookup key ms).map (fun m =>
        if key = key0 then { m with contents := m.contents ++ [(slot, pn)] } else m) := by
  induction ms with
  | nil => rfl
  | cons e rest ih =>
    by_cases h0 : e.1 = key0 <;> by_cases h : e.1 = key
    · have hkk : key = key0 := by rw [← h, h0]
      simp [appendContent, alookup, h0, h, hkk]
    · simp only [appendContent, List.map_cons, if_pos h0, alookup] at ih ⊢
      simp only [if_neg h]
      exact ih
    · have hkk : ¬key = key0 := by rw [← h]; exact h0
      simp [appendContent, alookup, h0, h, hkk]
    · simp only [appendContent, List.map_cons, if_neg h0, alookup] at ih ⊢
      simp only [if_neg h]
      exact ih

theorem iproute2ProgsLoop_mono : ∀ (progs : List (String × ProgramSpec))
    (ms : List (String × MapSpec)) (idx : List (Nat × String))
    (ms2 : List (String × MapSpec)),
    iproute2ProgsLoop progs ms idx = .ok ms2 →
    ∀ key m, alookup key ms = some m →
    ∃ tl, alookup key ms2 = some { m with contents := m.contents ++ tl } := by
  intro progs
  induction progs with
  | nil =>
    intro ms idx ms2 h key m hkey
    rw [iproute2ProgsLoop] at h
    injection h with h1
    subst h1
    refine ⟨[], ?_⟩
    rw [List.append_nil]
    exact hkey
  | cons e rest ih =>
    intro ms idx ms2 h key m hkey
    obtain ⟨n, p⟩ := e
    rw [iproute2ProgsLoop] at h
    rcases hps : parseIdSlot p.sectionName with _ | idslot <;> simp only [hps] at h
    · exact ih ms idx ms2 h key m hkey
    · rcases idslot with ⟨id, slot⟩
      rcases hal : alookup id idx with _ | key0 <;> simp only [hal] at h
      · cases h
      · have hkey2 : alookup key (appendContent key0 slot n ms) =
            some (if key = key0 then { m with contents := m.contents ++ [(slot, n)] }
              else m) := by
          rw [appendContent_alookup, hkey]
          rfl
        by_cases hk : key = key0
        · rw [if_pos hk] at hkey2
          obtain ⟨tl, htl⟩ := ih _ idx ms2 h key _ hkey2
          refine ⟨(slot, n) :: tl, ?_⟩
          rw [htl]
          simp
        · rw [if_neg hk] at hkey2
          exact ih _ idx ms2 h key m hkey2

theorem iproute2ProgsLoop_adds : ∀ (progs : List (String × ProgramSpec))
    (ms : List (String × MapSpec)) (idx : List (Nat × String))
    (ms2 : List (String × MapSpec)),
    iproute2ProgsLoop progs ms idx = .ok ms2 →
    ∀ np p id slot key m, (np, p) ∈ progs →
    parseIdSlot p.sectionName = some (id, slot) →
    alookup id idx = some key → alookup key ms = some m →
    ∃ m2, alookup key ms2 = some m2 ∧ m2.pinning = m.pinning ∧
      (slot, np) ∈ m2.contents := by
  intro progs
  induction progs with
  | nil => intro ms idx ms2 h np p id slot key m hmem; simp at hmem
  | cons e rest ih =>
    intro ms idx ms2 h np p id slot key m hmem hps hal hkey
    obtain ⟨n0, p0⟩ := e
    rw [iproute2ProgsLoop] at h
    rcases List.mem_cons.mp hmem with heq | hmem2
    · injection heq with he1 he2
      subst he1
      subst he2
      simp only [hps, hal] at h
      have hkey2 : alookup key (appendContent key slot np ms) =
          some { m with contents := m.contents ++ [(slot, np)] } := by
        rw [appendContent_alookup, hkey]
        simp
      obtain ⟨tl, htl⟩ := iproute2ProgsLoop_mono rest _ idx ms2 h key _ hkey2
      refine ⟨_, htl, rfl, ?_⟩
      simp
    · rcases hps0 : parseIdSlot p0.sectionName with _ | idslot0 <;> simp only [hps0] at h
      · exact ih ms idx ms2 h np p id slot key m hmem2 hps hal hkey
      · rcases idslot0 with ⟨id0, slot0⟩
        rcases hal0 : alookup id0 idx with _ | key00 <;> simp only [hal0] at h
        · cases h
        · have hkey2 := appendContent_alookup key00 slot0 n0 ms key
          rw [hkey] at hkey2
          simp only [Option.map_some'] at hkey2
          by_cases hk : key = key00
          · rw [if_pos hk] at hkey2
            obtain ⟨m2, h1, h2, h3⟩ := ih _ idx ms2 h np p id slot key _ hmem2 hps hal hkey2
            exact ⟨m2, h1, h2, h3⟩
          · rw [if_neg hk] at hkey2
            exact ih _ idx ms2 h np p id slot key m hmem2 hps hal hkey2

/-- C5 amended: for every bundle containing a map whose non-empty legacy
Extra trailer decodes in the bundle byte order to id 3 and pinning 1 (the
reserved quadword is ignored) and a program whose section name is 3/12, if
iproute2Compat succeeds, then afterwards that map carries pin-type 1 and its
contents list the entry of slot 12 pointing at the program name; the slot of
a section name is accepted in decimal or 0x-prefixed hexadecimal. Success is
not guaranteed for every such bundle (see the counterexample); map keys are
assumed unique, as Go map iteration guarantees. -/
theorem iproute2Compat_trailer_and_slot (spec spec2 : CollectionSpec)
    (nm : String) (m : MapSpec) (bs : List Nat) (np : String) (p : ProgramSpec)
    (hnodup : (spec.maps.map Prod.fst).Nodup)
    (hm : (nm, m) ∈ spec.maps) (hx : m.extra = some bs)
    (hdec : decodeTrailer spec.byteOrder bs = some (3, 1))
    (hp : (np, p) ∈ spec.programs) (hsec : p.sectionName = "3/12")
    (hok : iproute2Compat spec = .ok spec2) :
    (∃ m2, alookup nm spec2.maps = some m2 ∧ m2.pinning = 1 ∧
      (12, np) ∈ m2.contents) ∧
    parseIdSlot "3/12" = some (3, 12) ∧ parseIdSlot "3/0xc" = some (3, 12) := by
  refine ⟨?_, by decide, by decide⟩
  rw [iproute2Compat] at hok
  rcases hml : iproute2MapsLoop spec.byteOrder spec.maps [] with e | ⟨ms1, idx1⟩ <;>
    simp only [hml] at hok
  · cases hok
  rcases hpl : iproute2ProgsLoop spec.programs ms1 idx1 with e | msf <;>
    simp only [hpl] at hok
  · cases hok
  injection hok with hok
  subst hok
  obtain ⟨hfound, hidx⟩ :=
    iproute2MapsLoop_found spec.byteOrder spec.maps [] ms1 idx1 hml hnodup
      nm m bs 3 1 hm hx hdec (by decide)
  have hps : parseIdSlot p.sectionName = some (3, 12) := by
    rw [hsec]
    decide
  obtain ⟨m2, h1, h2, h3⟩ :=
    iproute2ProgsLoop_adds spec.programs ms1 idx1 msf hpl np p 3 12 nm
      { m with pinning := 1 } hp hps hidx hfound
  exact ⟨m2, h1, h2, h3⟩

def c5trailer : List Nat := [3, 0, 0, 0, 1, 0, 0, 0, 0, 0, 0, 0, 0, 0, 0, 0]

def c5map : MapSpec := ⟨"m", some c5trailer, 0, []⟩

def c5prog : ProgramSpec := ⟨"p", "3/12", .schedCLS, []⟩

def c5spec : CollectionSpec := ⟨[("p", c5prog)], [("m", c5map)], [], .little⟩

def c5out : CollectionSpec :=
  ⟨[("p", c5prog)], [("m", ⟨"m", some c5trailer, 1, [(12, "p")]⟩)], [], .little⟩

theorem iproute2Compat_trailer_and_slot_witness :
    (∃ m2, alookup "m" c5out.maps = some m2 ∧ m2.pinning = 1 ∧
      (12, "p") ∈ m2.contents) ∧
    parseIdSlot "3/12" = some (3, 12) ∧ parseIdSlot "3/0xc" = some (3, 12) :=
  iproute2Compat_trailer_and_slot c5spec c5out "m" c5map c5trailer "p" c5prog
    (by decide) (by decide) rfl (by decide) (by decide) rfl (by decide)

def c5badProg : ProgramSpec := ⟨"q", "9/1", .schedCLS, []⟩

def c5cex : CollectionSpec :=
  ⟨[("p", c5prog), ("q", c5badProg)], [("m", c5map)], [], .little⟩

/-- Counterexample to C5 as stated: this bundle contains a map whose legacy
trailer decodes to id 3, pinning 1, reserved 0, and a program with section
name 3/12, yet iproute2Compat does not succeed: another program references
the unknown iproute2 map id 9 and the whole translation returns that hard
error, so the claim that iproute2Compat succeeds on every such bundle is
false. -/
theorem iproute2Compat_not_always_ok :
    (alookup "m" c5cex.maps).isSome = true ∧
    c5map.extra = some c5trailer ∧
    decodeTrailer c5cex.byteOrder c5trailer = some (3, 1) ∧
    alookup "p" c5cex.programs = some c5prog ∧ c5prog.sectionName = "3/12" ∧
    iproute2Compat c5cex = .error (.noMapWithID 9) := by
  decide
